import Mathlib

/-!
# Verification of vectorized elementary-function kernels
  (arm-optimized-routines, src/math and src/pl/math)

This development gives a shallow embedding of the vector math kernels as
functions on IEEE-754 bit patterns (naturals), with exact rational value
semantics and a computable round-to-nearest-ties-to-even.  Vector lanes of
the 128-bit NEON registers are modelled as pairs; SVE kernels are modelled
per active lane.  Data tables and scalar libm routines that are not part of
the sources are taken as parameters of the corresponding kernels, and are
documented at each kernel as modelled from the spec.
-/

set_option maxRecDepth 10000

namespace FPModel

/-- An IEEE-754 binary interchange format: number of exponent bits and of
mantissa (trailing significand) bits. -/
structure Fmt where
  ew : Nat
  mw : Nat
deriving DecidableEq

/-- binary64: 11 exponent bits, 52 mantissa bits. -/
def F64 : Fmt := ⟨11, 52⟩

/-- binary32: 8 exponent bits, 23 mantissa bits. -/
def F32 : Fmt := ⟨8, 23⟩

namespace Fmt

variable (f : Fmt)

/-- Bit position of the sign bit. -/
def wTop : Nat := f.ew + f.mw

/-- All-ones exponent field. -/
def emask : Nat := 2 ^ f.ew - 1

/-- Exponent bias. -/
def bias : Nat := 2 ^ (f.ew - 1) - 1

/-- Sign bit of a bit pattern. -/
def signB (b : Nat) : Nat := b / 2 ^ f.wTop % 2

/-- Biased exponent field of a bit pattern. -/
def expf (b : Nat) : Nat := b / 2 ^ f.mw % 2 ^ f.ew

/-- Mantissa (trailing significand) field of a bit pattern. -/
def manf (b : Nat) : Nat := b % 2 ^ f.mw

/-- Assemble a bit pattern from sign, biased exponent and mantissa fields. -/
def encode (s e m : Nat) : Nat := s * 2 ^ f.wTop + e * 2 ^ f.mw + m

def isNan (b : Nat) : Bool := f.expf b == f.emask && f.manf b != 0

def isInf (b : Nat) : Bool := f.expf b == f.emask && f.manf b == 0

def isFinite (b : Nat) : Bool := f.expf b != f.emask

def isZero (b : Nat) : Bool := f.expf b == 0 && f.manf b == 0

/-- The canonical quiet NaN produced by invalid operations (positive,
top mantissa bit set), as on AArch64 with default NaN propagation. -/
def qnan : Nat := f.encode 0 f.emask (2 ^ (f.mw - 1))

def posInf : Nat := f.encode 0 f.emask 0

/-- Infinity with the given sign bit. -/
def signedInf (s : Nat) : Nat := f.encode s f.emask 0

/-- Zero with the given sign bit. -/
def signedZero (s : Nat) : Nat := f.encode s 0 0

/-- Flip the sign bit (IEEE negate). -/
def negBits (b : Nat) : Nat := f.encode (1 - f.signB b) (f.expf b) (f.manf b)

/-- Clear the sign bit (IEEE abs). -/
def absBits (b : Nat) : Nat := f.encode 0 (f.expf b) (f.manf b)

/-- Exact rational value of a finite bit pattern (garbage for NaN/Inf;
all uses are guarded by isFinite).  This is the semantic value used in
theorem statements; computation inside the operations goes through the
executable fraction pairs below. -/
def val (b : Nat) : ℚ :=
  let e := f.expf b
  let m := f.manf b
  let k : Int := (if e = 0 then 1 else (e : Int)) - f.bias - f.mw
  let m' : Nat := if e = 0 then m else 2 ^ f.mw + m
  let mag : ℚ :=
    if 0 ≤ k then ((m' * 2 ^ k.toNat : Nat) : ℚ)
    else (m' : ℚ) / ((2 ^ (-k).toNat : Nat) : ℚ)
  if f.signB b = 1 then -mag else mag

end Fmt

/-! ## Executable exact fractions

Rationals are represented for computation as a plain integer numerator
over a positive natural denominator, without normalization: the rounding
functions below never assume reduced fractions, and avoiding gcd-based
normalization keeps every operation reducible by the kernel. -/

/-- An unnormalized fraction: num / den. -/
structure Q2 where
  num : Int
  den : Nat
deriving DecidableEq

namespace Q2

/-- Semantic value of a fraction. -/
def toQ (q : Q2) : ℚ := (q.num : ℚ) / (q.den : ℚ)

def add (a b : Q2) : Q2 := ⟨a.num * b.den + b.num * a.den, a.den * b.den⟩

def mul (a b : Q2) : Q2 := ⟨a.num * b.num, a.den * b.den⟩

def neg (a : Q2) : Q2 := ⟨-a.num, a.den⟩

/-- Exact quotient (meaningful only for a nonzero divisor). -/
def div (a b : Q2) : Q2 := ⟨a.num * b.num.sign * b.den, a.den * b.num.natAbs⟩

def lt (a b : Q2) : Bool := decide (a.num * b.den < b.num * a.den)

def le (a b : Q2) : Bool := decide (a.num * b.den ≤ b.num * a.den)

/-- Truncation toward zero. -/
def trunc (q : Q2) : Int := q.num.sign * (q.num.natAbs / q.den)

end Q2

/-- Round the rational a/b (b positive) to the nearest natural number,
ties going to the even one. -/
def rnde (a b : Nat) : Nat :=
  let q := a / b
  let r := a % b
  if 2 * r < b then q
  else if b < 2 * r then q + 1
  else if q % 2 = 0 then q else q + 1

/-- Square-and-multiply exponentiation with a fixed recursion depth, so
that the kernel can reduce powers with large exponents (the built-in
power unfolds linearly in the exponent and is not reducible there). -/
def sqpow : Nat → Nat → Nat → Nat
  | 0, _, _ => 1
  | fuel + 1, b, k => (if k % 2 = 1 then b else 1) * sqpow fuel (b * b) (k / 2)

/-- 2^k, computed by square-and-multiply; correct for every k < 2^13. -/
def pow2E (k : Nat) : Nat := sqpow 13 2 k

/-- Binary search for the floor of log2 on the exponent interval
[lo, hi), maintaining 2^lo ≤ n < 2^hi; the fixed recursion depth keeps
the computation reducible by the kernel. -/
def log2bs : Nat → Nat → Nat → Nat → Nat
  | 0, lo, _, _ => lo
  | fuel + 1, lo, hi, n =>
    if hi ≤ lo + 1 then lo
    else if pow2E ((lo + hi) / 2) ≤ n then log2bs fuel ((lo + hi) / 2) hi n
    else log2bs fuel lo ((lo + hi) / 2) n

/-- Floor of log2 of a natural number (0 for 0), correct for every
number below 2^8192 (every fraction arising in the pipelines is far
smaller). -/
def nlog2 (n : Nat) : Nat := log2bs 13 0 (2 ^ 13) n

/-- Does 2^k ≤ a / b hold (a, b naturals, b positive)? -/
def qle2p (k : Int) (a b : Nat) : Bool :=
  if 0 ≤ k then decide (pow2E k.toNat * b ≤ a) else decide (b ≤ pow2E (-k).toNat * a)

/-- Floor of log2 of the positive rational a/b. -/
def flog2 (a b : Nat) : Int :=
  let e0 : Int := (nlog2 a : Int) - (nlog2 b : Int)
  if qle2p e0 a b then e0 else e0 - 1

/-- Round (a/b) * 2^k to the nearest natural, ties to even. -/
def sRnde (a b : Nat) (k : Int) : Nat :=
  if 0 ≤ k then rnde (a * pow2E k.toNat) b else rnde a (b * pow2E (-k).toNat)

namespace Fmt

variable (f : Fmt)

/-- Round the positive rational a/b to the format, returning the bit
pattern with sign bit 0 (overflow gives +Inf, underflow +0). -/
def roundPos (a b : Nat) : Nat :=
  let e : Int := flog2 a b
  let emin : Int := 1 - f.bias
  if e < emin then
    -- subnormal range: fixed grid 2^(emin - mw)
    let m := sRnde a b ((f.mw : Int) + f.bias - 1)
    if m < 2 ^ f.mw then f.encode 0 0 m else f.encode 0 1 (m - 2 ^ f.mw)
  else
    let m := sRnde a b ((f.mw : Int) - e)
    let e2 : Int := if m = 2 ^ (f.mw + 1) then e + 1 else e
    let m2 : Nat := if m = 2 ^ (f.mw + 1) then 2 ^ f.mw else m
    if (f.bias : Int) < e2 then f.posInf
    else f.encode 0 (e2 + f.bias).toNat (m2 - 2 ^ f.mw)

/-- Executable exact value of a finite bit pattern, as a fraction. -/
def valE (b : Nat) : Q2 :=
  let e := f.expf b
  let m := f.manf b
  let k : Int := (if e = 0 then 1 else (e : Int)) - f.bias - f.mw
  let m' : Nat := if e = 0 then m else 2 ^ f.mw + m
  let mag : Q2 :=
    if 0 ≤ k then ⟨(m' * pow2E k.toNat : Nat), 1⟩ else ⟨(m' : Int), pow2E (-k).toNat⟩
  if f.signB b = 1 then mag.neg else mag

/-- Round a fraction to the format under round-to-nearest, ties-to-even.
Exact zero returns +0; callers implement the IEEE signed-zero rules. -/
def roundE (q : Q2) : Nat :=
  if q.num = 0 then 0
  else if 0 < q.num then f.roundPos q.num.natAbs q.den
  else f.encode 1 0 0 + f.roundPos q.num.natAbs q.den

/-- IEEE addition (round to nearest even); any NaN input or invalid
combination returns the canonical quiet NaN. -/
def fadd (a b : Nat) : Nat :=
  if f.isNan a || f.isNan b then f.qnan
  else if f.isInf a then
    if f.isInf b && f.signB a != f.signB b then f.qnan else f.signedInf (f.signB a)
  else if f.isInf b then f.signedInf (f.signB b)
  else
    let v := Q2.add (f.valE a) (f.valE b)
    if v.num = 0 then
      if f.isZero a && f.isZero b && f.signB a == f.signB b then
        f.signedZero (f.signB a)
      else 0
    else f.roundE v

def fneg (a : Nat) : Nat := f.negBits a

def fsub (a b : Nat) : Nat := f.fadd a (f.negBits b)

/-- IEEE multiplication. -/
def fmul (a b : Nat) : Nat :=
  if f.isNan a || f.isNan b then f.qnan
  else if f.isInf a || f.isInf b then
    if f.isZero a || f.isZero b then f.qnan
    else f.signedInf ((f.signB a + f.signB b) % 2)
  else
    let v := Q2.mul (f.valE a) (f.valE b)
    if v.num = 0 then f.signedZero ((f.signB a + f.signB b) % 2)
    else f.roundE v

/-- IEEE fused multiply-add: a * b + c with a single rounding. -/
def ffma (a b c : Nat) : Nat :=
  if f.isNan a || f.isNan b || f.isNan c then f.qnan
  else if (f.isInf a && f.isZero b) || (f.isZero a && f.isInf b) then f.qnan
  else if f.isInf a || f.isInf b then
    let sp := (f.signB a + f.signB b) % 2
    if f.isInf c && f.signB c != sp then f.qnan else f.signedInf sp
  else if f.isInf c then f.signedInf (f.signB c)
  else
    let v := Q2.add (Q2.mul (f.valE a) (f.valE b)) (f.valE c)
    if v.num = 0 then
      let sp := (f.signB a + f.signB b) % 2
      if (f.isZero a || f.isZero b) && f.isZero c then
        if sp == f.signB c then f.signedZero sp else 0
      else 0
    else f.roundE v

/-- IEEE division. -/
def fdiv (a b : Nat) : Nat :=
  if f.isNan a || f.isNan b then f.qnan
  else if f.isInf a then
    if f.isInf b then f.qnan else f.signedInf ((f.signB a + f.signB b) % 2)
  else if f.isInf b then f.signedZero ((f.signB a + f.signB b) % 2)
  else if f.isZero b then
    if f.isZero a then f.qnan else f.signedInf ((f.signB a + f.signB b) % 2)
  else
    let v := Q2.div (f.valE a) (f.valE b)
    if v.num = 0 then f.signedZero ((f.signB a + f.signB b) % 2)
    else f.roundE v

/-- Greater-than comparison (false on NaN). -/
def fgt (a b : Nat) : Bool :=
  !f.isNan a && !f.isNan b &&
  (if f.isInf a then
    (if f.signB a = 0 then !(f.isInf b && f.signB b == 0) else false)
   else if f.isInf b then f.signB b == 1
   else Q2.lt (f.valE b) (f.valE a))

/-- Less-or-equal comparison (false on NaN). -/
def fle (a b : Nat) : Bool :=
  !f.isNan a && !f.isNan b &&
  (if f.isInf a then
    (if f.signB a = 1 then true else f.isInf b && f.signB b == 0)
   else if f.isInf b then f.signB b == 0
   else Q2.le (f.valE a) (f.valE b))

/-- Greater-or-equal comparison (false on NaN). -/
def fge (a b : Nat) : Bool := f.fle b a

end Fmt

/-- Float to signed integer conversion with round-toward-zero
(fcvtzs); NaN gives 0 and saturation is not modelled since every use
is on small values. -/
def fcvtzs (f : Fmt) (b : Nat) : Int :=
  if f.isFinite b then Q2.trunc (f.valE b) else 0

/-- Signed integer to float conversion (scvtf). -/
def scvtf (f : Fmt) (k : Int) : Nat := f.roundE ⟨k, 1⟩

/-! ## Unsigned 64-bit helper operations (wrapping) -/

/-- Wrapping 64-bit subtraction. -/
def u64sub (a b : Nat) : Nat := (a + (2 ^ 64 - b % 2 ^ 64)) % 2 ^ 64

/-- Wrapping 32-bit subtraction. -/
def u32sub (a b : Nat) : Nat := (a + (2 ^ 32 - b % 2 ^ 32)) % 2 ^ 32

/-- Interpret a 64-bit pattern as a signed two's-complement integer. -/
def toS64 (a : Nat) : Int :=
  if a % 2 ^ 64 < 2 ^ 63 then (a % 2 ^ 64 : Int) else (a % 2 ^ 64 : Int) - 2 ^ 64

/-- Encode a signed integer as a 64-bit two's-complement pattern. -/
def ofS64 (k : Int) : Nat := (k % 2 ^ 64).toNat

/-- Arithmetic shift right of a 64-bit pattern (floor division of the
signed interpretation). -/
def asr64 (a : Nat) (k : Nat) : Int := Int.fdiv (toS64 a) (2 ^ k)

/-- Interpret a 32-bit pattern as a signed two's-complement integer. -/
def toS32 (a : Nat) : Int :=
  if a % 2 ^ 32 < 2 ^ 31 then (a % 2 ^ 32 : Int) else (a % 2 ^ 32 : Int) - 2 ^ 32

/-- Encode a signed integer as a 32-bit two's-complement pattern. -/
def ofS32 (k : Int) : Nat := (k % 2 ^ 32).toNat

/-! ## Two-lane vectors (NEON 128-bit registers) -/

/-- A two-lane vector of 64-bit values; lane masks are two booleans. -/
abbrev V2 (α : Type) : Type := α × α

def vmap {α β : Type} (g : α → β) (v : V2 α) : V2 β := (g v.1, g v.2)

def vmap2 {α β γ : Type} (g : α → β → γ) (v : V2 α) (w : V2 β) : V2 γ :=
  (g v.1 w.1, g v.2 w.2)

def vdup {α : Type} (a : α) : V2 α := (a, a)

def vany (m : V2 Bool) : Bool := m.1 || m.2

def vall (m : V2 Bool) : Bool := m.1 && m.2

/-- Lane-wise select: lane from x where the mask is set, else from y
(vbslq with an all-bits lane mask). -/
def vbsl {α : Type} (m : V2 Bool) (x y : V2 α) : V2 α :=
  (if m.1 then x.1 else y.1, if m.2 then x.2 else y.2)

/-- Modelled from the spec: the scalar fallback harness v_call_f64 /
v_call_f32 of the missing header v_math.h.  For every flagged lane it
computes the scalar reference implementation on that lane's scalar input,
and returns a vector where flagged lanes carry the scalar result and
unflagged lanes retain the fast-path result. -/
def vcall (g : Nat → Nat) (x y : V2 Nat) (m : V2 Bool) : V2 Nat :=
  (if m.1 then g x.1 else y.1, if m.2 then g x.2 else y.2)

/-! ## Four-lane vectors (NEON 128-bit registers of binary32) -/

/-- A four-lane vector of 32-bit values. -/
abbrev V4 (α : Type) : Type := (α × α) × (α × α)

def v4map {α β : Type} (g : α → β) (v : V4 α) : V4 β :=
  ((g v.1.1, g v.1.2), (g v.2.1, g v.2.2))

def v4any (m : V4 Bool) : Bool := m.1.1 || m.1.2 || m.2.1 || m.2.2

/-- Modelled from the spec: v_call_f32, the four-lane analogue of vcall. -/
def vcall4 (g : Nat → Nat) (x y : V4 Nat) (m : V4 Bool) : V4 Nat :=
  ((if m.1.1 then g x.1.1 else y.1.1, if m.1.2 then g x.1.2 else y.1.2),
   (if m.2.1 then g x.2.1 else y.2.1, if m.2.2 then g x.2.2 else y.2.2))

namespace Fmt

variable (f : Fmt)

/-- NEON vfmaq intrinsic: vfmaq(a, b, c) = a + b * c with one rounding. -/
def vfma (a b c : Nat) : Nat := f.ffma b c a

/-- NEON vfmsq intrinsic: vfmsq(a, b, c) = a - b * c with one rounding,
implemented as a fused multiply-add of the negated multiplicand. -/
def vfms (a b c : Nat) : Nat := f.ffma (f.negBits b) c a

end Fmt

/-! ## Polynomial evaluation combinators

Modelled from the spec (the headers estrin.h and horner.h are not among
the sources): Estrin pairs terms using precomputed powers of the argument,
Horner is the sequential scheme; both are built from fused multiply-adds.
The offset variants evaluate the coefficients from a start index onward. -/

def estrin1 (f : Fmt) (x : Nat) (c : Nat → Nat) (i : Nat) : Nat :=
  f.ffma x (c (1 + i)) (c i)

def estrin2 (f : Fmt) (x x2 : Nat) (c : Nat → Nat) (i : Nat) : Nat :=
  f.ffma x2 (c (2 + i)) (estrin1 f x c i)

def estrin3 (f : Fmt) (x x2 : Nat) (c : Nat → Nat) (i : Nat) : Nat :=
  f.ffma x2 (estrin1 f x c (2 + i)) (estrin1 f x c i)

def estrin7 (f : Fmt) (x x2 x4 : Nat) (c : Nat → Nat) (i : Nat) : Nat :=
  f.ffma x4 (estrin3 f x x2 c (4 + i)) (estrin3 f x x2 c i)

def estrin10 (f : Fmt) (x x2 x4 x8 : Nat) (c : Nat → Nat) : Nat :=
  f.ffma x8 (estrin2 f x x2 c 8) (estrin7 f x x2 x4 c 0)

def estrin15 (f : Fmt) (x x2 x4 x8 : Nat) (c : Nat → Nat) (i : Nat) : Nat :=
  f.ffma x8 (estrin7 f x x2 x4 c (8 + i)) (estrin7 f x x2 x4 c i)

def estrin18 (f : Fmt) (x x2 x4 x8 x16 : Nat) (c : Nat → Nat) : Nat :=
  f.ffma x16 (estrin2 f x x2 c 16) (estrin15 f x x2 x4 x8 c 0)

/-- Horner scheme: hornerN f x c n i evaluates coefficients c i .. c (i+n)
from the highest index down by fused multiply-adds. -/
def hornerN (f : Fmt) (x : Nat) (c : Nat → Nat) : Nat → Nat → Nat
  | 0, i => c i
  | n + 1, i => f.ffma x (hornerN f x c n (i + 1)) (c i)

/-! ## Common bit-pattern constants -/

def one64 : Nat := 0x3ff0000000000000
def negOne64 : Nat := 0xbff0000000000000
def two64 : Nat := 0x4000000000000000
def half64 : Nat := 0x3fe0000000000000
def shift64 : Nat := 0x4338000000000000
def absMask64 : Nat := 0x7fffffffffffffff
def one32 : Nat := 0x3f800000

/-! ## Correctness of the computational rounding layer -/

theorem sqpow_eq (fuel : Nat) : ∀ b k : Nat, k < 2 ^ fuel → sqpow fuel b k = b ^ k := by
  induction fuel with
  | zero =>
    intro b k hk
    interval_cases k
    rfl
  | succ fuel ih =>
    intro b k hk
    have hk2 : k / 2 < 2 ^ fuel := by
      have h2 : (2 : Nat) ^ (fuel + 1) = 2 ^ fuel * 2 := by ring
      omega
    show (if k % 2 = 1 then b else 1) * sqpow fuel (b * b) (k / 2) = b ^ k
    rw [ih (b * b) (k / 2) hk2]
    have hbb : (b * b) ^ (k / 2) = b ^ (2 * (k / 2)) := by
      rw [two_mul, pow_add]
      rw [mul_pow]
    rw [hbb]
    rcases Nat.mod_two_eq_zero_or_one k with h | h
    · rw [h, if_neg (by norm_num : ¬(0 = 1)), one_mul]
      congr 1
      omega
    · rw [h, if_pos rfl]
      calc b * b ^ (2 * (k / 2)) = b ^ (1 + 2 * (k / 2)) := by
            rw [pow_add, pow_one]
        _ = b ^ k := by
            congr 1
            omega

theorem pow2E_eq (k : Nat) (hk : k < 2 ^ 13) : pow2E k = 2 ^ k :=
  sqpow_eq 13 2 k hk

theorem log2bs_spec (fuel : Nat) : ∀ lo hi n : Nat,
    2 ^ lo ≤ n → n < 2 ^ hi → hi ≤ lo + 2 ^ fuel → hi ≤ 2 ^ 13 →
    2 ^ log2bs fuel lo hi n ≤ n ∧ n < 2 ^ (log2bs fuel lo hi n + 1) := by
  induction fuel with
  | zero =>
    intro lo hi n h1 h2 h3 _
    have hlo : lo < hi := by
      by_contra hcon
      push_neg at hcon
      have := Nat.pow_le_pow_right (by norm_num : 0 < 2) hcon
      omega
    have : hi = lo + 1 := by omega
    subst this
    exact ⟨h1, h2⟩
  | succ fuel ih =>
    intro lo hi n h1 h2 h3 h4
    have hlo : lo < hi := by
      by_contra hcon
      push_neg at hcon
      have := Nat.pow_le_pow_right (by norm_num : 0 < 2) hcon
      omega
    simp only [log2bs]
    by_cases hscase : hi ≤ lo + 1
    · rw [if_pos hscase]
      have heq : hi = lo + 1 := by omega
      subst heq
      exact ⟨h1, h2⟩
    · rw [if_neg hscase]
      have hmid : (lo + hi) / 2 < 2 ^ 13 := by omega
      rw [pow2E_eq _ hmid]
      have hstep : (2 : Nat) ^ (fuel + 1) = 2 ^ fuel + 2 ^ fuel := by ring
      by_cases hc : 2 ^ ((lo + hi) / 2) ≤ n
      · rw [if_pos hc]
        exact ih ((lo + hi) / 2) hi n hc h2 (by omega) h4
      · rw [if_neg hc]
        push_neg at hc
        exact ih lo ((lo + hi) / 2) n h1 hc (by omega) (by omega)

theorem nlog2_spec (n : Nat) (h1 : 1 ≤ n) (h2 : n < 2 ^ 2 ^ 13) :
    2 ^ nlog2 n ≤ n ∧ n < 2 ^ (nlog2 n + 1) := by
  unfold nlog2
  exact log2bs_spec 13 0 (2 ^ 13) n (by simpa using h1) h2 (by norm_num) (by norm_num)

theorem nlog2_lt (n : Nat) (h1 : 1 ≤ n) (h2 : n < 2 ^ 2 ^ 13) :
    nlog2 n < 2 ^ 13 := by
  obtain ⟨ha, hb⟩ := nlog2_spec n h1 h2
  by_contra hcon
  push_neg at hcon
  have := Nat.pow_le_pow_right (by norm_num : 0 < 2) hcon
  omega

/-! ## The nearest-integer ties-to-even function on the rationals -/

/-- Round to the nearest integer, ties to the even integer. -/
def nearestEven (q : ℚ) : Int :=
  if q - ⌊q⌋ < 1 / 2 then ⌊q⌋
  else if 1 / 2 < q - ⌊q⌋ then ⌊q⌋ + 1
  else if 2 ∣ ⌊q⌋ then ⌊q⌋ else ⌊q⌋ + 1

theorem nearestEven_intCast (z : Int) : nearestEven (z : ℚ) = z := by
  unfold nearestEven
  rw [Int.floor_intCast]
  norm_num

theorem nearestEven_err (q : ℚ) : |(nearestEven q : ℚ) - q| ≤ 1 / 2 := by
  unfold nearestEven
  have h1 : (⌊q⌋ : ℚ) ≤ q := Int.floor_le q
  have h2 : q < ⌊q⌋ + 1 := Int.lt_floor_add_one q
  split
  · rw [abs_le]
    constructor <;> linarith
  · rename_i hge
    push_neg at hge
    split
    · push_cast
      rw [abs_le]
      constructor <;> linarith
    · rename_i hle
      push_neg at hle
      split <;> [skip; push_cast] <;> rw [abs_le] <;> constructor <;> linarith

theorem nearestEven_le_of_lt (q : ℚ) (z : Int) (h : q < z + 1 / 2) :
    nearestEven q ≤ z := by
  have herr := nearestEven_err q
  rw [abs_le] at herr
  have : (nearestEven q : ℚ) < z + 1 := by linarith
  exact_mod_cast Int.lt_add_one_iff.1 (by exact_mod_cast this)

theorem lt_nearestEven_of_lt (q : ℚ) (z : Int) (h : (z : ℚ) - 1 / 2 < q) :
    z ≤ nearestEven q := by
  have herr := nearestEven_err q
  rw [abs_le] at herr
  have : (z : ℚ) - 1 < nearestEven q := by linarith
  have h2 : z - 1 < nearestEven q := by exact_mod_cast this
  omega

theorem nearestEven_neg (q : ℚ) : nearestEven (-q) = -nearestEven q := by
  by_cases hint : ∃ z : Int, q = (z : ℚ)
  · obtain ⟨z, rfl⟩ := hint
    rw [← Int.cast_neg, nearestEven_intCast, nearestEven_intCast]
  · have hf1 : (⌊q⌋ : ℚ) < q :=
      lt_of_le_of_ne (Int.floor_le q) (fun h => hint ⟨⌊q⌋, h.symm⟩)
    have hf2 : q < ⌊q⌋ + 1 := Int.lt_floor_add_one q
    have hneg : ⌊-q⌋ = -⌊q⌋ - 1 := by
      rw [Int.floor_eq_iff]
      constructor
      · push_cast
        linarith
      · push_cast
        linarith
    unfold nearestEven
    rw [hneg]
    rcases lt_trichotomy (q - ⌊q⌋) (1 / 2) with hr | hr | hr
    · rw [if_pos hr,
        if_neg (show ¬(-q - ((-⌊q⌋ - 1 : Int) : ℚ) < 1 / 2) by
          intro hcon; push_cast at hcon; linarith),
        if_pos (show (1 : ℚ) / 2 < -q - ((-⌊q⌋ - 1 : Int) : ℚ) by
          push_cast; linarith)]
      omega
    · rw [if_neg (show ¬(-q - ((-⌊q⌋ - 1 : Int) : ℚ) < 1 / 2) by
          intro hcon; push_cast at hcon; linarith),
        if_neg (show ¬((1 : ℚ) / 2 < -q - ((-⌊q⌋ - 1 : Int) : ℚ)) by
          intro hcon; push_cast at hcon; linarith),
        if_neg (show ¬(q - (⌊q⌋ : ℚ) < 1 / 2) by intro hcon; linarith),
        if_neg (show ¬((1 : ℚ) / 2 < q - (⌊q⌋ : ℚ)) by intro hcon; linarith)]
      by_cases hd : 2 ∣ ⌊q⌋
      · have hp : ¬(2 ∣ (-⌊q⌋ - 1)) := by omega
        rw [if_pos hd, if_neg hp]
        omega
      · have hp : 2 ∣ (-⌊q⌋ - 1) := by omega
        rw [if_neg hd, if_pos hp]
        omega
    · rw [if_neg (show ¬(q - (⌊q⌋ : ℚ) < 1 / 2) by intro hcon; linarith),
        if_pos hr,
        if_pos (show -q - ((-⌊q⌋ - 1 : Int) : ℚ) < 1 / 2 by push_cast; linarith)]
      omega

theorem rnde_eq (a b : Nat) (hb : 0 < b) :
    (rnde a b : Int) = nearestEven ((a : ℚ) / b) := by
  have hbq : (0 : ℚ) < b := by exact_mod_cast hb
  have hdm : a / b * b + a % b = a := Nat.div_add_mod' a b
  have hml : a % b < b := Nat.mod_lt a hb
  have hfl : ⌊(a : ℚ) / b⌋ = ((a / b : ℕ) : Int) := by
    rw [Int.floor_eq_iff]
    refine ⟨?_, ?_⟩
    · rw [Int.cast_natCast, le_div_iff₀ hbq]
      exact_mod_cast Nat.div_mul_le_self a b
    · rw [Int.cast_natCast, div_lt_iff₀ hbq]
      have : a < (a / b + 1) * b := by
        calc a = a / b * b + a % b := hdm.symm
          _ < a / b * b + b := by omega
          _ = (a / b + 1) * b := by ring
      exact_mod_cast this
  have hfr : (a : ℚ) / b - ((a / b : ℕ) : ℚ) = ((a % b : ℕ) : ℚ) / b := by
    have hcast : (a : ℚ) = ((a / b : ℕ) : ℚ) * b + ((a % b : ℕ) : ℚ) := by
      exact_mod_cast hdm.symm
    rw [hcast]
    field_simp
    ring
  unfold rnde nearestEven
  rw [hfl]
  simp only [Int.cast_natCast]
  rw [hfr]
  by_cases h1 : 2 * (a % b) < b
  · have hq1 : ((a % b : ℕ) : ℚ) / b < 1 / 2 := by
      rw [div_lt_div_iff₀ hbq (by norm_num : (0:ℚ) < 2)]
      have : ((2 * (a % b) : ℕ) : ℚ) < b := by exact_mod_cast h1
      push_cast at this
      linarith
    rw [if_pos h1, if_pos hq1]
  · by_cases h2 : b < 2 * (a % b)
    · have hq2 : 1 / 2 < ((a % b : ℕ) : ℚ) / b := by
        rw [div_lt_div_iff₀ (by norm_num : (0:ℚ) < 2) hbq]
        have : (b : ℚ) < ((2 * (a % b) : ℕ) : ℚ) := by exact_mod_cast h2
        push_cast at this
        linarith
      rw [if_neg h1, if_pos h2, if_neg (by rw [not_lt]; exact le_of_lt hq2),
        if_pos hq2]
      push_cast
      ring
    · have heq : 2 * (a % b) = b := by omega
      have hq3 : ((a % b : ℕ) : ℚ) / b = 1 / 2 := by
        rw [div_eq_div_iff hbq.ne' (by norm_num : (2:ℚ) ≠ 0)]
        have : ((2 * (a % b) : ℕ) : ℚ) = b := by exact_mod_cast heq
        push_cast at this
        linarith
      rw [if_neg h1, if_neg h2, hq3,
        if_neg (show ¬((1:ℚ)/2 < 1/2) by norm_num),
        if_neg (show ¬((1:ℚ)/2 < 1/2) by norm_num)]
      by_cases hpar : a / b % 2 = 0
      · have hd2 : (2:ℕ) ∣ a / b := by omega
        have hd2' : (2:Int) ∣ ((a / b : ℕ) : Int) := by exact_mod_cast hd2
        rw [if_pos hpar, if_pos hd2']
      · have hnd2 : ¬ (2:Int) ∣ ((a / b : ℕ) : Int) := by
          intro hc
          have : (2:ℕ) ∣ a / b := by exact_mod_cast hc
          omega
        rw [if_neg hpar, if_neg hnd2]
        push_cast
        ring

theorem sRnde_eq (a b : Nat) (hb : 0 < b) (k : Int) (hk : k.natAbs < 2 ^ 13) :
    (sRnde a b k : Int) = nearestEven ((a : ℚ) / b * (2 : ℚ) ^ k) := by
  unfold sRnde
  by_cases h : 0 ≤ k
  · rw [if_pos h, pow2E_eq _ (by omega : k.toNat < 2 ^ 13)]
    have harg : (a : ℚ) / b * (2 : ℚ) ^ k = ((a * 2 ^ k.toNat : ℕ) : ℚ) / b := by
      push_cast
      rw [← zpow_natCast (2 : ℚ) k.toNat, Int.toNat_of_nonneg h]
      ring
    rw [harg, ← rnde_eq _ _ hb]
  · rw [if_neg h]
    obtain ⟨m, rfl⟩ : ∃ m : ℕ, k = -(m : Int) := ⟨(-k).toNat, by omega⟩
    have hm13 : m < 2 ^ 13 := by simpa using hk
    simp only [neg_neg, Int.toNat_natCast]
    rw [pow2E_eq _ hm13]
    have hbp : 0 < b * 2 ^ m := by positivity
    have hc : ((b * 2 ^ m : ℕ) : ℚ) = (b : ℚ) * 2 ^ m := by
      push_cast
      ring
    have harg : (a : ℚ) / b * (2 : ℚ) ^ (-(m : Int)) = (a : ℚ) / ((b * 2 ^ m : ℕ) : ℚ) := by
      rw [hc, zpow_neg, zpow_natCast, ← div_eq_mul_inv, div_mul_eq_div_div]
    rw [harg, ← rnde_eq _ _ hbp]


theorem qle2p_iff (k : Int) (a b : Nat) (hb : 0 < b) (hk : k.natAbs < 2 ^ 13) :
    qle2p k a b = true ↔ (2 : ℚ) ^ k ≤ (a : ℚ) / b := by
  have hbq : (0 : ℚ) < b := by exact_mod_cast hb
  unfold qle2p
  by_cases h : 0 ≤ k
  · rw [if_pos h, pow2E_eq _ (by omega : k.toNat < 2 ^ 13), decide_eq_true_iff,
      le_div_iff₀ hbq]
    rw [show (2:ℚ) ^ k = ((2 ^ k.toNat : ℕ) : ℚ) by
      push_cast
      rw [← zpow_natCast (2:ℚ), Int.toNat_of_nonneg h]]
    constructor
    · intro hle
      exact_mod_cast hle
    · intro hle
      exact_mod_cast hle
  · obtain ⟨m, rfl⟩ : ∃ m : ℕ, k = -(m : Int) := ⟨(-k).toNat, by omega⟩
    have hm13 : m < 2 ^ 13 := by simpa using hk
    rw [if_neg h]
    simp only [neg_neg, Int.toNat_natCast]
    rw [pow2E_eq _ hm13, decide_eq_true_iff]
    have h2m : (0:ℚ) < 2 ^ m := by positivity
    rw [zpow_neg, zpow_natCast,
      show ((2:ℚ) ^ m)⁻¹ = 1 / 2 ^ m by rw [one_div],
      div_le_div_iff₀ h2m hbq, one_mul]
    constructor
    · intro hle
      have hle2 : (b:ℚ) ≤ ((2 ^ m * a : ℕ) : ℚ) := by exact_mod_cast hle
      push_cast at hle2
      linarith
    · intro hle
      have hle2 : (b:ℚ) ≤ ((2 ^ m * a : ℕ) : ℚ) := by push_cast; linarith
      exact_mod_cast hle2

theorem flog2_spec (a b : Nat) (ha : 0 < a) (hb : 0 < b)
    (ha2 : a < 2 ^ 2 ^ 12) (hb2 : b < 2 ^ 2 ^ 12) :
    (2:ℚ) ^ flog2 a b ≤ (a:ℚ) / b ∧ (a:ℚ) / b < (2:ℚ) ^ (flog2 a b + 1) ∧
    (flog2 a b).natAbs ≤ 2 ^ 12 := by
  have hpow : (2:ℕ) ^ 2 ^ 12 < 2 ^ 2 ^ 13 :=
    Nat.pow_lt_pow_right (by norm_num) (by norm_num)
  obtain ⟨hal, hau⟩ := nlog2_spec a ha (by omega)
  obtain ⟨hbl, hbu⟩ := nlog2_spec b hb (by omega)
  have hla : nlog2 a < 2 ^ 12 := by
    by_contra hcon
    push_neg at hcon
    have := Nat.pow_le_pow_right (by norm_num : 0 < 2) hcon
    omega
  have hlb : nlog2 b < 2 ^ 12 := by
    by_contra hcon
    push_neg at hcon
    have := Nat.pow_le_pow_right (by norm_num : 0 < 2) hcon
    omega
  have hbq : (0 : ℚ) < b := by exact_mod_cast hb
  have cast2 : ∀ t : ℕ, ((2 ^ t : ℕ) : ℚ) = (2:ℚ) ^ (t : Int) := by
    intro t
    push_cast
    rw [zpow_natCast]
  have hA1 : (2:ℚ) ^ ((nlog2 a : ℕ) : Int) ≤ (a : ℚ) := by
    rw [← cast2]
    exact_mod_cast hal
  have hA2 : (a : ℚ) < (2:ℚ) ^ ((nlog2 a + 1 : ℕ) : Int) := by
    rw [← cast2]
    exact_mod_cast hau
  have hB1 : (2:ℚ) ^ ((nlog2 b : ℕ) : Int) ≤ (b : ℚ) := by
    rw [← cast2]
    exact_mod_cast hbl
  have hB2 : (b : ℚ) < (2:ℚ) ^ ((nlog2 b + 1 : ℕ) : Int) := by
    rw [← cast2]
    exact_mod_cast hbu
  have htwo : (2:ℚ) ≠ 0 := by norm_num
  have hub : (a:ℚ) / b < (2:ℚ) ^ (((nlog2 a : ℕ) : Int) - (nlog2 b : ℕ) + 1) := by
    rw [div_lt_iff₀ hbq]
    calc (a:ℚ) < (2:ℚ) ^ ((nlog2 a + 1 : ℕ) : Int) := hA2
      _ = (2:ℚ) ^ (((nlog2 a : ℕ) : Int) - (nlog2 b : ℕ) + 1) *
          (2:ℚ) ^ ((nlog2 b : ℕ) : Int) := by
        rw [← zpow_add₀ htwo]
        congr 1
        push_cast
        ring
      _ ≤ (2:ℚ) ^ (((nlog2 a : ℕ) : Int) - (nlog2 b : ℕ) + 1) * b :=
        mul_le_mul_of_nonneg_left hB1 (by positivity)
  have hlbq : (2:ℚ) ^ (((nlog2 a : ℕ) : Int) - (nlog2 b : ℕ) - 1) < (a:ℚ) / b := by
    rw [lt_div_iff₀ hbq]
    calc (2:ℚ) ^ (((nlog2 a : ℕ) : Int) - (nlog2 b : ℕ) - 1) * b
        < (2:ℚ) ^ (((nlog2 a : ℕ) : Int) - (nlog2 b : ℕ) - 1) *
          (2:ℚ) ^ ((nlog2 b + 1 : ℕ) : Int) :=
          mul_lt_mul_of_pos_left hB2 (by positivity)
      _ = (2:ℚ) ^ ((nlog2 a : ℕ) : Int) := by
        rw [← zpow_add₀ htwo]
        congr 1
        push_cast
        ring
      _ ≤ (a:ℚ) := hA1
  unfold flog2
  have hk13 : (((nlog2 a : ℕ) : Int) - (nlog2 b : ℕ)).natAbs < 2 ^ 13 := by omega
  by_cases hq : qle2p (((nlog2 a : ℕ) : Int) - (nlog2 b : ℕ)) a b = true
  · rw [if_pos hq]
    have hle := (qle2p_iff _ a b hb hk13).1 hq
    exact ⟨hle, hub, by omega⟩
  · rw [if_neg hq]
    have hnle : ¬ (2:ℚ) ^ (((nlog2 a : ℕ) : Int) - (nlog2 b : ℕ)) ≤ (a:ℚ) / b :=
      fun hcon => hq ((qle2p_iff _ a b hb hk13).2 hcon)
    push_neg at hnle
    refine ⟨le_of_lt hlbq, ?_, by omega⟩
    calc (a:ℚ) / b < (2:ℚ) ^ (((nlog2 a : ℕ) : Int) - (nlog2 b : ℕ)) := hnle
      _ = (2:ℚ) ^ (((nlog2 a : ℕ) : Int) - (nlog2 b : ℕ) - 1 + 1) := by
        congr 1
        ring

theorem intLog_eq_of (q : ℚ) (e : Int) (hq : 0 < q)
    (h1 : (2:ℚ) ^ e ≤ q) (h2 : q < (2:ℚ) ^ (e + 1)) : Int.log 2 q = e := by
  have hl1 := Int.zpow_log_le_self (by norm_num : 1 < (2:ℕ)) hq
  have hl2 := Int.lt_zpow_succ_log_self (by norm_num : 1 < (2:ℕ)) q
  push_cast at hl1 hl2
  by_contra hne
  rcases lt_or_gt_of_ne hne with hlt | hgt
  · have hm : (2:ℚ) ^ (Int.log 2 q + 1) ≤ (2:ℚ) ^ e :=
      zpow_le_zpow_right₀ (by norm_num : (1:ℚ) ≤ 2) (by omega)
    linarith
  · have hm : (2:ℚ) ^ (e + 1) ≤ (2:ℚ) ^ (Int.log 2 q) :=
      zpow_le_zpow_right₀ (by norm_num : (1:ℚ) ≤ 2) (by omega)
    linarith

theorem nearestEven_add_int (q : ℚ) (z : Int) (hz : 2 ∣ z) :
    nearestEven (q + z) = nearestEven q + z := by
  unfold nearestEven
  rw [show q + (z:ℚ) = q + (z:Int) from rfl, Int.floor_add_int]
  have hfr : q + (z:ℚ) - ((⌊q⌋ + z : Int):ℚ) = q - ⌊q⌋ := by
    push_cast
    ring
  rw [hfr]
  split_ifs with h1 h2 h3 h4 h5 <;> omega

/-! ## Field extraction and value lemmas -/

theorem signB_lt (f : Fmt) (b : Nat) : f.signB b < 2 :=
  Nat.mod_lt _ (by norm_num)

theorem expf_lt (f : Fmt) (b : Nat) : f.expf b < 2 ^ f.ew :=
  Nat.mod_lt _ (Nat.pos_pow_of_pos _ (by norm_num))

theorem manf_lt (f : Fmt) (b : Nat) : f.manf b < 2 ^ f.mw :=
  Nat.mod_lt _ (Nat.pos_pow_of_pos _ (by norm_num))

theorem encode_fields (f : Fmt) (s e m : Nat) (hs : s < 2) (he : e < 2 ^ f.ew)
    (hm : m < 2 ^ f.mw) :
    f.signB (f.encode s e m) = s ∧ f.expf (f.encode s e m) = e ∧
    f.manf (f.encode s e m) = m := by
  unfold Fmt.encode Fmt.signB Fmt.expf Fmt.manf Fmt.wTop
  have hpw : (2:ℕ) ^ (f.ew + f.mw) = 2 ^ f.ew * 2 ^ f.mw := pow_add 2 f.ew f.mw
  have hM0 : 0 < 2 ^ f.mw := Nat.pos_pow_of_pos _ (by norm_num)
  have hE0 : 0 < 2 ^ f.ew := Nat.pos_pow_of_pos _ (by norm_num)
  have hblock : e * 2 ^ f.mw + m < 2 ^ f.ew * 2 ^ f.mw := by
    have h1 : e * 2 ^ f.mw + m < (e + 1) * 2 ^ f.mw := by
      rw [add_mul, one_mul]
      omega
    have h2 : (e + 1) * 2 ^ f.mw ≤ 2 ^ f.ew * 2 ^ f.mw :=
      Nat.mul_le_mul_right _ (by omega)
    omega
  refine ⟨?_, ?_, ?_⟩
  · rw [hpw, show s * (2 ^ f.ew * 2 ^ f.mw) + e * 2 ^ f.mw + m
      = 2 ^ f.ew * 2 ^ f.mw * s + (e * 2 ^ f.mw + m) by ring,
      Nat.mul_add_div (by positivity), Nat.div_eq_of_lt hblock, add_zero,
      Nat.mod_eq_of_lt hs]
  · rw [hpw, show s * (2 ^ f.ew * 2 ^ f.mw) + e * 2 ^ f.mw + m
      = 2 ^ f.mw * (s * 2 ^ f.ew + e) + m by ring,
      Nat.mul_add_div hM0, Nat.div_eq_of_lt hm, add_zero, Nat.add_comm,
      Nat.add_mul_mod_self_right, Nat.mod_eq_of_lt he]
  · rw [hpw, show s * (2 ^ f.ew * 2 ^ f.mw) + e * 2 ^ f.mw + m
      = 2 ^ f.mw * (s * 2 ^ f.ew + e) + m by ring,
      Nat.mul_add_mod, Nat.mod_eq_of_lt hm]

theorem val_eq (f : Fmt) (b : Nat) :
    f.val b = (if f.signB b = 1 then (-1:ℚ) else 1) *
      (((if f.expf b = 0 then f.manf b else 2 ^ f.mw + f.manf b : ℕ) : ℚ) *
        (2:ℚ) ^ ((if f.expf b = 0 then 1 else (f.expf b : Int)) - f.bias - f.mw)) := by
  have key : ∀ (n : Nat) (k : Int), (if 0 ≤ k then ((n * 2 ^ k.toNat : Nat) : ℚ)
      else (n : ℚ) / ((2 ^ (-k).toNat : Nat) : ℚ)) = (n : ℚ) * (2:ℚ) ^ k := by
    intro n k
    by_cases hks : 0 ≤ k
    · rw [if_pos hks]
      push_cast
      rw [← zpow_natCast (2:ℚ), Int.toNat_of_nonneg hks]
    · rw [if_neg hks]
      obtain ⟨t, rfl⟩ : ∃ t : ℕ, k = -(t:Int) := ⟨(-k).toNat, by omega⟩
      simp only [neg_neg, Int.toNat_natCast]
      push_cast
      rw [zpow_neg, zpow_natCast, div_eq_mul_inv]
  unfold Fmt.val
  dsimp only []
  rw [key]
  by_cases hs : f.signB b = 1
  · rw [if_pos hs, if_pos hs]
    ring
  · rw [if_neg hs, if_neg hs]
    ring

theorem negBits_fields (f : Fmt) (b : Nat) :
    f.signB (f.negBits b) = 1 - f.signB b ∧ f.expf (f.negBits b) = f.expf b ∧
    f.manf (f.negBits b) = f.manf b := by
  unfold Fmt.negBits
  exact encode_fields f _ _ _ (by omega) (expf_lt f b) (manf_lt f b)

theorem isFinite_negBits (f : Fmt) (b : Nat) :
    f.isFinite (f.negBits b) = f.isFinite b := by
  unfold Fmt.isFinite
  rw [(negBits_fields f b).2.1]

theorem isNan_negBits (f : Fmt) (b : Nat) :
    f.isNan (f.negBits b) = f.isNan b := by
  unfold Fmt.isNan
  rw [(negBits_fields f b).2.1, (negBits_fields f b).2.2]

theorem isInf_negBits (f : Fmt) (b : Nat) :
    f.isInf (f.negBits b) = f.isInf b := by
  unfold Fmt.isInf
  rw [(negBits_fields f b).2.1, (negBits_fields f b).2.2]

theorem isZero_negBits (f : Fmt) (b : Nat) :
    f.isZero (f.negBits b) = f.isZero b := by
  unfold Fmt.isZero
  rw [(negBits_fields f b).2.1, (negBits_fields f b).2.2]

theorem val_negBits (f : Fmt) (b : Nat) : f.val (f.negBits b) = - f.val b := by
  rw [val_eq f (f.negBits b), val_eq f b,
    (negBits_fields f b).1, (negBits_fields f b).2.1, (negBits_fields f b).2.2]
  have hsb := signB_lt f b
  interval_cases hsbv : f.signB b
  · simp
    split <;> ring
  · simp
    split <;> ring

theorem encode0_lt (f : Fmt) (e m : Nat) (he : e < 2 ^ f.ew) (hm : m < 2 ^ f.mw) :
    f.encode 0 e m < 2 ^ f.wTop := by
  unfold Fmt.encode Fmt.wTop
  have h1 : e * 2 ^ f.mw + m < (e + 1) * 2 ^ f.mw := by
    rw [add_mul, one_mul]
    omega
  have h2 : (e + 1) * 2 ^ f.mw ≤ 2 ^ f.ew * 2 ^ f.mw :=
    Nat.mul_le_mul_right _ (by omega)
  rw [pow_add]
  omega

/-! ## Semantic rounding and correctness of roundPos -/

/-- Semantic rounding of a rational to the format: round to nearest with
ties to even on a grid of spacing 2^(e - mw), where the exponent e is the
floor binary logarithm clamped below at the subnormal scale.  Overflow is
not modelled; every use stays below the overflow threshold. -/
def roundQ (f : Fmt) (q : ℚ) : ℚ :=
  (nearestEven (q * (2:ℚ) ^ ((f.mw : Int) - max (Int.log 2 |q|) (1 - f.bias))) : ℚ) *
    (2:ℚ) ^ (max (Int.log 2 |q|) (1 - (f.bias:Int)) - f.mw)

theorem roundPos_val (f : Fmt) (hew : 2 ≤ f.ew) (hb12 : f.bias + f.mw + 2 ≤ 2 ^ 12)
    (a b : Nat) (ha : 0 < a) (hb : 0 < b) (ha2 : a < 2 ^ 2 ^ 12) (hb2 : b < 2 ^ 2 ^ 12)
    (hub : (a:ℚ) / b < (2:ℚ) ^ (f.bias : Int)) :
    f.signB (f.roundPos a b) = 0 ∧ f.isFinite (f.roundPos a b) = true ∧
    f.roundPos a b < 2 ^ f.wTop ∧
    f.val (f.roundPos a b) = roundQ f ((a:ℚ)/b) := by
  have hbq : (0:ℚ) < b := by exact_mod_cast hb
  have hq0 : 0 < (a:ℚ)/b := by positivity
  obtain ⟨h1, h2, hke⟩ := flog2_spec a b ha hb ha2 hb2
  have hlog : Int.log 2 |(a:ℚ)/b| = flog2 a b := by
    rw [abs_of_pos hq0]
    exact intLog_eq_of _ _ hq0 h1 h2
  have hbias1 : 1 ≤ f.bias := by
    have h22 : (2:ℕ) ^ 1 ≤ 2 ^ (f.ew - 1) := Nat.pow_le_pow_right (by norm_num) (by omega)
    unfold Fmt.bias
    omega
  have hpow2ew : (2:ℕ) ^ f.ew = 2 * f.bias + 2 := by
    have h2e : (2:ℕ) ^ f.ew = 2 ^ (f.ew - 1 + 1) := by
      congr 1
      omega
    have h2b : 0 < (2:ℕ) ^ (f.ew - 1) := Nat.pos_pow_of_pos _ (by norm_num)
    unfold Fmt.bias
    rw [h2e, pow_succ]
    omega
  have hemask : f.emask = 2 * f.bias + 1 := by
    unfold Fmt.emask
    omega
  have htne : (2:ℚ) ≠ 0 := by norm_num
  unfold roundQ
  rw [hlog]
  unfold Fmt.roundPos
  dsimp only []
  by_cases hsub : flog2 a b < 1 - (f.bias:Int)
  · rw [if_pos hsub]
    have hmaxe : max (flog2 a b) (1 - (f.bias:Int)) = 1 - (f.bias:Int) := by omega
    rw [hmaxe]
    have hexp : (f.mw:Int) - (1 - (f.bias:Int)) = (f.mw:Int) + f.bias - 1 := by ring
    rw [hexp]
    have hkk : ((f.mw:Int) + f.bias - 1).natAbs < 2 ^ 13 := by omega
    have hsr := sRnde_eq a b hb ((f.mw:Int) + f.bias - 1) hkk
    have hq' : (a:ℚ)/b * (2:ℚ)^((f.mw:Int) + f.bias - 1) < (2:ℚ) ^ (f.mw:Int) := by
      calc (a:ℚ)/b * (2:ℚ)^((f.mw:Int)+f.bias-1)
          < (2:ℚ)^(flog2 a b + 1) * (2:ℚ)^((f.mw:Int)+f.bias-1) :=
            mul_lt_mul_of_pos_right h2 (by positivity)
        _ ≤ (2:ℚ) ^ (f.mw:Int) := by
            rw [← zpow_add₀ htne]
            apply zpow_le_zpow_right₀ (by norm_num)
            omega
    have hq'0 : 0 < (a:ℚ)/b * (2:ℚ)^((f.mw:Int) + f.bias - 1) := by positivity
    have hznn : (2:ℚ)^(f.mw:Int) = (2:ℚ)^f.mw := by rw [zpow_natCast]
    have hmle : (sRnde a b ((f.mw:Int) + f.bias - 1) : Int) ≤ (((2:ℕ) ^ f.mw : ℕ) : Int) := by
      rw [hsr]
      apply nearestEven_le_of_lt
      push_cast
      rw [hznn] at hq'
      linarith
    have hmle2 : sRnde a b ((f.mw:Int) + f.bias - 1) ≤ 2 ^ f.mw := by exact_mod_cast hmle
    by_cases hmcase : sRnde a b ((f.mw:Int) + f.bias - 1) < 2 ^ f.mw
    · rw [if_pos hmcase]
      obtain ⟨hsgn, hexf, hman⟩ :=
        encode_fields f 0 0 (sRnde a b ((f.mw:Int)+f.bias-1))
          (by norm_num) (Nat.pos_pow_of_pos _ (by norm_num)) hmcase
      refine ⟨hsgn, ?_, encode0_lt f _ _ (Nat.pos_pow_of_pos _ (by norm_num)) hmcase, ?_⟩
      · unfold Fmt.isFinite
        rw [hexf]
        simp only [bne_iff_ne, ne_eq, hemask]
        omega
      · rw [val_eq f]
        rw [hsgn, hexf, hman, if_neg (by norm_num : ¬(0 = 1)), if_pos rfl, if_pos rfl]
        have hcast : ((sRnde a b ((f.mw:Int)+f.bias-1) : ℕ) : ℚ) =
            (nearestEven ((a:ℚ)/b * (2:ℚ)^((f.mw:Int)+f.bias-1)) : ℚ) := by
          exact_mod_cast hsr
        rw [one_mul, hcast]
    · rw [if_neg hmcase]
      have hmeq : sRnde a b ((f.mw:Int)+f.bias-1) = 2 ^ f.mw := by omega
      rw [hmeq, Nat.sub_self]
      have he1 : (1:ℕ) < 2 ^ f.ew := by omega
      obtain ⟨hsgn, hexf, hman⟩ :=
        encode_fields f 0 1 0 (by norm_num) he1 (Nat.pos_pow_of_pos _ (by norm_num))
      refine ⟨hsgn, ?_, encode0_lt f _ _ he1 (Nat.pos_pow_of_pos _ (by norm_num)), ?_⟩
      · unfold Fmt.isFinite
        rw [hexf]
        simp only [bne_iff_ne, ne_eq, hemask]
        omega
      · rw [val_eq f]
        rw [hsgn, hexf, hman, if_neg (by norm_num : ¬(0 = 1)),
          if_neg (by norm_num : ¬(1 = 0)), if_neg (by norm_num : ¬(1 = 0))]
        have hne : (nearestEven ((a:ℚ)/b * (2:ℚ)^((f.mw:Int)+f.bias-1)) : ℚ) =
            ((2 ^ f.mw + 0 : ℕ) : ℚ) := by
          have hz : nearestEven ((a:ℚ)/b * (2:ℚ)^((f.mw:Int)+f.bias-1)) =
              ((2 ^ f.mw + 0 : ℕ) : Int) := by
            rw [← hsr, hmeq]
            push_cast
            ring
          exact_mod_cast hz
        rw [hne, one_mul]
        norm_num
  · rw [if_neg hsub]
    push_neg at hsub
    have hmaxe : max (flog2 a b) (1 - (f.bias:Int)) = flog2 a b := by omega
    rw [hmaxe]
    have he_lt_bias : flog2 a b < f.bias := by
      by_contra hcon
      push_neg at hcon
      have hch : (2:ℚ)^(f.bias:Int) ≤ (2:ℚ)^(flog2 a b) :=
        zpow_le_zpow_right₀ (by norm_num) hcon
      linarith
    have hkk : ((f.mw:Int) - flog2 a b).natAbs < 2 ^ 13 := by omega
    have hsr := sRnde_eq a b hb ((f.mw:Int) - flog2 a b) hkk
    have hq'lo : (2:ℚ) ^ (f.mw:Int) ≤ (a:ℚ)/b * (2:ℚ)^((f.mw:Int) - flog2 a b) := by
      calc (2:ℚ)^(f.mw:Int) = (2:ℚ)^(flog2 a b) * (2:ℚ)^((f.mw:Int) - flog2 a b) := by
            rw [← zpow_add₀ htne]
            congr 1
            ring
        _ ≤ (a:ℚ)/b * (2:ℚ)^((f.mw:Int) - flog2 a b) :=
            mul_le_mul_of_nonneg_right h1 (by positivity)
    have hq'hi : (a:ℚ)/b * (2:ℚ)^((f.mw:Int) - flog2 a b) < (2:ℚ)^((f.mw:Int)+1) := by
      calc (a:ℚ)/b * (2:ℚ)^((f.mw:Int) - flog2 a b)
          < (2:ℚ)^(flog2 a b + 1) * (2:ℚ)^((f.mw:Int) - flog2 a b) :=
            mul_lt_mul_of_pos_right h2 (by positivity)
        _ = (2:ℚ)^((f.mw:Int)+1) := by
            rw [← zpow_add₀ htne]
            congr 1
            ring
    have hznn : (2:ℚ)^(f.mw:Int) = (2:ℚ)^f.mw := by rw [zpow_natCast]
    have hznn1 : (2:ℚ)^((f.mw:Int)+1) = (2:ℚ)^(f.mw+1) := by
      rw [← zpow_natCast (2:ℚ) (f.mw+1)]
      congr 1
    have hmlo : ((2:ℕ)^f.mw : Int) ≤ (sRnde a b ((f.mw:Int) - flog2 a b) : Int) := by
      rw [hsr]
      apply lt_nearestEven_of_lt
      push_cast
      rw [hznn] at hq'lo
      linarith
    have hmhi : (sRnde a b ((f.mw:Int) - flog2 a b) : Int) ≤ ((2:ℕ)^(f.mw+1) : Int) := by
      rw [hsr]
      apply nearestEven_le_of_lt
      push_cast
      rw [hznn1] at hq'hi
      linarith
    have hmlo' : 2^f.mw ≤ sRnde a b ((f.mw:Int) - flog2 a b) := by exact_mod_cast hmlo
    have hmhi' : sRnde a b ((f.mw:Int) - flog2 a b) ≤ 2^(f.mw+1) := by exact_mod_cast hmhi
    have hpsucc : (2:ℕ)^(f.mw+1) = 2^f.mw * 2 := pow_succ 2 f.mw
    by_cases hmcase : sRnde a b ((f.mw:Int) - flog2 a b) = 2 ^ (f.mw + 1)
    · rw [if_pos hmcase, if_pos hmcase]
      rw [if_neg (show ¬((f.bias:Int) < flog2 a b + 1) by omega)]
      have htn : ((flog2 a b + 1 + f.bias).toNat : Int) = flog2 a b + 1 + f.bias :=
        Int.toNat_of_nonneg (by omega)
      have hef1 : (flog2 a b + 1 + (f.bias:Int)).toNat < 2 ^ f.ew := by omega
      have hman0 : (2:ℕ)^f.mw - 2^f.mw = 0 := Nat.sub_self _
      rw [hman0]
      obtain ⟨hsgn, hexf, hman⟩ :=
        encode_fields f 0 ((flog2 a b + 1 + (f.bias:Int)).toNat) 0
          (by norm_num) hef1 (Nat.pos_pow_of_pos _ (by norm_num))
      refine ⟨hsgn, ?_, encode0_lt f _ _ hef1 (Nat.pos_pow_of_pos _ (by norm_num)), ?_⟩
      · unfold Fmt.isFinite
        rw [hexf]
        simp only [bne_iff_ne, ne_eq, hemask]
        omega
      · rw [val_eq f]
        rw [hsgn, hexf, hman, if_neg (by norm_num : ¬(0 = 1)),
          if_neg (show ¬((flog2 a b + 1 + (f.bias:Int)).toNat = 0) by omega),
          if_neg (show ¬((flog2 a b + 1 + (f.bias:Int)).toNat = 0) by omega)]
        have hne : (nearestEven ((a:ℚ)/b * (2:ℚ)^((f.mw:Int) - flog2 a b)) : ℚ) =
            (2:ℚ)^((f.mw:Int)+1) := by
          have hz : nearestEven ((a:ℚ)/b * (2:ℚ)^((f.mw:Int) - flog2 a b)) =
              ((2^(f.mw+1) : ℕ) : Int) := by
            rw [← hsr, hmcase]
          rw [hz]
          push_cast
          rw [hznn1]
        rw [hne, one_mul, htn]
        rw [show ((2^f.mw + 0 : ℕ) : ℚ) = (2:ℚ)^(f.mw:Int) by push_cast; rw [hznn]; ring]
        rw [← zpow_add₀ htne, ← zpow_add₀ htne]
        congr 1
        ring
    · rw [if_neg hmcase, if_neg hmcase]
      rw [if_neg (show ¬((f.bias:Int) < flog2 a b) by omega)]
      have htn : ((flog2 a b + f.bias).toNat : Int) = flog2 a b + f.bias :=
        Int.toNat_of_nonneg (by omega)
      have hef1 : (flog2 a b + (f.bias:Int)).toNat < 2 ^ f.ew := by omega
      have hmanlt : sRnde a b ((f.mw:Int) - flog2 a b) - 2^f.mw < 2^f.mw := by omega
      obtain ⟨hsgn, hexf, hman⟩ :=
        encode_fields f 0 ((flog2 a b + (f.bias:Int)).toNat)
          (sRnde a b ((f.mw:Int) - flog2 a b) - 2^f.mw)
          (by norm_num) hef1 hmanlt
      refine ⟨hsgn, ?_, encode0_lt f _ _ hef1 hmanlt, ?_⟩
      · unfold Fmt.isFinite
        rw [hexf]
        simp only [bne_iff_ne, ne_eq, hemask]
        omega
      · rw [val_eq f]
        rw [hsgn, hexf, hman, if_neg (by norm_num : ¬(0 = 1)),
          if_neg (show ¬((flog2 a b + (f.bias:Int)).toNat = 0) by omega),
          if_neg (show ¬((flog2 a b + (f.bias:Int)).toNat = 0) by omega)]
        have hmm : (2:ℕ)^f.mw + (sRnde a b ((f.mw:Int) - flog2 a b) - 2^f.mw)
            = sRnde a b ((f.mw:Int) - flog2 a b) := by omega
        rw [hmm, one_mul, htn]
        have hcast : ((sRnde a b ((f.mw:Int) - flog2 a b) : ℕ) : ℚ) =
            (nearestEven ((a:ℚ)/b * (2:ℚ)^((f.mw:Int) - flog2 a b)) : ℚ) := by
          exact_mod_cast hsr
        rw [hcast]
        congr 1
        ring

/-! ## Executable fraction semantics, bounds, and roundE correctness -/

theorem bias_pos (f : Fmt) (hew : 2 ≤ f.ew) : 1 ≤ f.bias := by
  have h22 : (2:ℕ) ^ 1 ≤ 2 ^ (f.ew - 1) := Nat.pow_le_pow_right (by norm_num) (by omega)
  unfold Fmt.bias
  omega

theorem two_pow_ew_eq (f : Fmt) (hew : 2 ≤ f.ew) : 2 ^ f.ew = 2 * f.bias + 2 := by
  have h2e : (2:ℕ) ^ f.ew = 2 ^ (f.ew - 1 + 1) := by
    congr 1
    omega
  have h2b : 0 < (2:ℕ) ^ (f.ew - 1) := Nat.pos_pow_of_pos _ (by norm_num)
  unfold Fmt.bias
  rw [h2e, pow_succ]
  omega

theorem sqpow_pos (fuel : Nat) : ∀ b k : Nat, 0 < b → 0 < sqpow fuel b k := by
  induction fuel with
  | zero =>
    intro b k hb
    exact Nat.one_pos
  | succ fuel ih =>
    intro b k hb
    show 0 < (if k % 2 = 1 then b else 1) * sqpow fuel (b * b) (k / 2)
    have h1 : 0 < sqpow fuel (b * b) (k / 2) := ih _ _ (Nat.mul_pos hb hb)
    by_cases h : k % 2 = 1
    · rw [if_pos h]
      exact Nat.mul_pos hb h1
    · rw [if_neg h, one_mul]
      exact h1

theorem pow2E_pos (k : Nat) : 0 < pow2E k := sqpow_pos 13 2 k (by norm_num)

theorem toQ_neg (x : Q2) : (Q2.neg x).toQ = - x.toQ := by
  simp only [Q2.neg, Q2.toQ]
  push_cast
  ring

theorem toQ_add (x y : Q2) (hx : 0 < x.den) (hy : 0 < y.den) :
    (Q2.add x y).toQ = x.toQ + y.toQ := by
  simp only [Q2.add, Q2.toQ]
  have hx' : (x.den : ℚ) ≠ 0 := by exact_mod_cast hx.ne'
  have hy' : (y.den : ℚ) ≠ 0 := by exact_mod_cast hy.ne'
  push_cast
  field_simp

theorem toQ_mul (x y : Q2) (hx : 0 < x.den) (hy : 0 < y.den) :
    (Q2.mul x y).toQ = x.toQ * y.toQ := by
  simp only [Q2.mul, Q2.toQ]
  have hx' : (x.den : ℚ) ≠ 0 := by exact_mod_cast hx.ne'
  have hy' : (y.den : ℚ) ≠ 0 := by exact_mod_cast hy.ne'
  push_cast
  rw [div_mul_div_comm]

theorem toQ_div (x y : Q2) (hy : y.num ≠ 0) (hxd : 0 < x.den) (hyd : 0 < y.den) :
    (Q2.div x y).toQ = x.toQ / y.toQ := by
  simp only [Q2.div, Q2.toQ]
  have hx' : (x.den : ℚ) ≠ 0 := by exact_mod_cast hxd.ne'
  have hy' : (y.den : ℚ) ≠ 0 := by exact_mod_cast hyd.ne'
  have hyq : (y.num : ℚ) ≠ 0 := by exact_mod_cast hy
  have habs : ((y.num.natAbs : ℕ) : ℚ) = |(y.num : ℚ)| := by
    rw [Int.cast_natAbs, Int.cast_abs]
  have hna : ((y.num.natAbs : ℕ) : ℚ) ≠ 0 := by
    rw [habs]
    exact abs_ne_zero.mpr hyq
  have h1 : (y.num.sign : ℚ) * ((y.num.natAbs : ℕ) : ℚ) = (y.num : ℚ) := by
    rw [habs]
    rcases lt_trichotomy y.num 0 with hn | hn | hn
    · rw [Int.sign_eq_neg_one_of_neg hn,
        abs_of_neg (show (y.num:ℚ) < 0 by exact_mod_cast hn)]
      push_cast
      ring
    · exact absurd hn hy
    · rw [Int.sign_eq_one_of_pos hn,
        abs_of_pos (show (0:ℚ) < (y.num:ℚ) by exact_mod_cast hn)]
      push_cast
      ring
  have hsign : (y.num.sign : ℚ) = (y.num : ℚ) / ((y.num.natAbs : ℕ) : ℚ) := by
    rw [eq_div_iff hna]
    exact h1
  have hsq : ((y.num.natAbs : ℕ) : ℚ) * ((y.num.natAbs : ℕ) : ℚ) = (y.num:ℚ) * (y.num:ℚ) := by
    rw [habs, abs_mul_abs_self]
  push_cast
  rw [hsign]
  field_simp
  linear_combination (-((x.num:ℚ) * ↑y.den * ↑x.den)) * hsq

theorem valE_toQ (f : Fmt) (hew : 2 ≤ f.ew) (hb12 : f.bias + f.mw + 2 ≤ 2 ^ 12)
    (b : Nat) : (f.valE b).toQ = f.val b := by
  have hbias1 : 1 ≤ f.bias := bias_pos f hew
  have hpow2ew := two_pow_ew_eq f hew
  have he2 : f.expf b < 2 ^ f.ew := expf_lt f b
  have hkey : ∀ (n : Nat) (k : Int), k.natAbs ≤ 2 ^ 12 →
      (Q2.toQ (if 0 ≤ k then (⟨(n * pow2E k.toNat : Nat), 1⟩ : Q2)
        else ⟨(n : Int), pow2E (-k).toNat⟩))
      = (if 0 ≤ k then ((n * 2 ^ k.toNat : Nat) : ℚ)
         else (n : ℚ) / ((2 ^ (-k).toNat : Nat) : ℚ)) := by
    intro n k hk
    by_cases hks : 0 ≤ k
    · rw [if_pos hks, if_pos hks]
      simp only [Q2.toQ]
      rw [pow2E_eq _ (by omega)]
      norm_num
    · rw [if_neg hks, if_neg hks]
      simp only [Q2.toQ]
      rw [pow2E_eq _ (by omega), Int.cast_natCast]
  unfold Fmt.valE Fmt.val
  dsimp only []
  by_cases hs : f.signB b = 1
  · rw [if_pos hs, if_pos hs, toQ_neg, hkey _ _ (by split <;> omega)]
  · rw [if_neg hs, if_neg hs, hkey _ _ (by split <;> omega)]

theorem valE_bounds (f : Fmt) (hew : 2 ≤ f.ew) (hb12 : f.bias + f.mw + 2 ≤ 2 ^ 12)
    (b : Nat) :
    (f.valE b).num.natAbs ≤ 2 ^ (f.bias + f.mw + 2) ∧
    0 < (f.valE b).den ∧ (f.valE b).den ≤ 2 ^ (f.bias + f.mw + 2) := by
  have hbias1 : 1 ≤ f.bias := bias_pos f hew
  have hpow2ew := two_pow_ew_eq f hew
  have he2 : f.expf b < 2 ^ f.ew := expf_lt f b
  have hm2 : f.manf b < 2 ^ f.mw := manf_lt f b
  have hkey : ∀ (n : Nat) (k : Int), n ≤ 2 ^ (f.mw + 1) → k ≤ f.bias + 1 →
      (-k).toNat ≤ f.bias + f.mw →
      ((if 0 ≤ k then (⟨(n * pow2E k.toNat : Nat), 1⟩ : Q2)
        else ⟨(n : Int), pow2E (-k).toNat⟩)).num.natAbs ≤ 2 ^ (f.bias + f.mw + 2) ∧
      0 < ((if 0 ≤ k then (⟨(n * pow2E k.toNat : Nat), 1⟩ : Q2)
        else ⟨(n : Int), pow2E (-k).toNat⟩)).den ∧
      ((if 0 ≤ k then (⟨(n * pow2E k.toNat : Nat), 1⟩ : Q2)
        else ⟨(n : Int), pow2E (-k).toNat⟩)).den ≤ 2 ^ (f.bias + f.mw + 2) := by
    intro n k hn hk1 hk2
    by_cases hks : 0 ≤ k
    · rw [if_pos hks]
      refine ⟨?_, by norm_num, Nat.one_le_two_pow⟩
      simp only [Int.natAbs_ofNat]
      rw [pow2E_eq _ (by omega)]
      calc n * 2 ^ k.toNat ≤ 2 ^ (f.mw + 1) * 2 ^ k.toNat :=
            Nat.mul_le_mul_right _ hn
        _ ≤ 2 ^ (f.mw + 1) * 2 ^ (f.bias + 1) :=
            Nat.mul_le_mul_left _ (Nat.pow_le_pow_right (by norm_num) (by omega))
        _ = 2 ^ (f.bias + f.mw + 2) := by
            rw [← pow_add]
            congr 1
            omega
    · rw [if_neg hks]
      rw [pow2E_eq _ (by omega)]
      refine ⟨?_, Nat.pos_pow_of_pos _ (by norm_num), ?_⟩
      · simp only [Int.natAbs_ofNat]
        calc n ≤ 2 ^ (f.mw + 1) := hn
          _ ≤ 2 ^ (f.bias + f.mw + 2) := Nat.pow_le_pow_right (by norm_num) (by omega)
      · exact Nat.pow_le_pow_right (by norm_num) (by omega)
  have hm' : (if f.expf b = 0 then f.manf b else 2 ^ f.mw + f.manf b) ≤ 2 ^ (f.mw + 1) := by
    have hp : (2:ℕ) ^ (f.mw + 1) = 2 ^ f.mw * 2 := pow_succ 2 f.mw
    split <;> omega
  unfold Fmt.valE
  dsimp only []
  by_cases hs : f.signB b = 1
  · rw [if_pos hs]
    have hres := hkey (if f.expf b = 0 then f.manf b else 2 ^ f.mw + f.manf b)
      ((if f.expf b = 0 then 1 else ((f.expf b : ℕ) : Int)) - f.bias - f.mw)
      hm' (by split <;> omega) (by split <;> omega)
    simpa [Q2.neg] using hres
  · rw [if_neg hs]
    exact hkey (if f.expf b = 0 then f.manf b else 2 ^ f.mw + f.manf b)
      ((if f.expf b = 0 then 1 else ((f.expf b : ℕ) : Int)) - f.bias - f.mw)
      hm' (by split <;> omega) (by split <;> omega)

theorem addSign_fields (f : Fmt) (p : Nat) (hp : p < 2 ^ f.wTop) :
    f.signB (2 ^ f.wTop + p) = 1 ∧ f.expf (2 ^ f.wTop + p) = f.expf p ∧
    f.manf (2 ^ f.wTop + p) = f.manf p := by
  have hsplit : (2:ℕ) ^ f.wTop = 2 ^ f.mw * 2 ^ f.ew := by
    unfold Fmt.wTop
    rw [Nat.add_comm, pow_add]
  refine ⟨?_, ?_, ?_⟩
  · unfold Fmt.signB
    rw [show (2:ℕ) ^ f.wTop + p = 2 ^ f.wTop * 1 + p by ring,
      Nat.mul_add_div (Nat.pos_pow_of_pos _ (by norm_num)), Nat.div_eq_of_lt hp]
  · unfold Fmt.expf
    rw [show (2:ℕ) ^ f.wTop + p = 2 ^ f.mw * 2 ^ f.ew + p by rw [← hsplit],
      Nat.mul_add_div (Nat.pos_pow_of_pos _ (by norm_num)), Nat.add_comm,
      Nat.add_mod_right]
  · unfold Fmt.manf
    rw [show (2:ℕ) ^ f.wTop + p = 2 ^ f.mw * 2 ^ f.ew + p by rw [← hsplit],
      Nat.mul_add_mod]

theorem val_addSign (f : Fmt) (p : Nat) (hp : p < 2 ^ f.wTop) :
    f.val (2 ^ f.wTop + p) = - f.val p ∧
    f.isFinite (2 ^ f.wTop + p) = f.isFinite p := by
  obtain ⟨h1, h2, h3⟩ := addSign_fields f p hp
  have hs0 : f.signB p = 0 := by
    unfold Fmt.signB
    rw [Nat.div_eq_of_lt hp]
  constructor
  · rw [val_eq f (2 ^ f.wTop + p), val_eq f p, h1, h2, h3, hs0]
    rw [if_pos rfl, if_neg (by norm_num : ¬(0 = 1))]
    ring
  · unfold Fmt.isFinite
    rw [h2]

theorem roundQ_neg (f : Fmt) (q : ℚ) : roundQ f (-q) = - roundQ f q := by
  unfold roundQ
  rw [abs_neg, show -q * (2:ℚ) ^ ((f.mw:Int) - max (Int.log 2 |q|) (1 - f.bias)) =
    -(q * (2:ℚ) ^ ((f.mw:Int) - max (Int.log 2 |q|) (1 - f.bias))) by ring,
    nearestEven_neg]
  push_cast
  ring

theorem roundQ_zero (f : Fmt) : roundQ f 0 = 0 := by
  have h0 : nearestEven 0 = 0 := by
    have h := nearestEven_intCast 0
    simpa using h
  unfold roundQ
  rw [zero_mul, h0]
  norm_num

theorem roundE_val (f : Fmt) (hew : 2 ≤ f.ew) (hb12 : f.bias + f.mw + 2 ≤ 2 ^ 12)
    (q : Q2) (hden : 0 < q.den) (hnum : q.num.natAbs < 2 ^ 2 ^ 12)
    (hden2 : q.den < 2 ^ 2 ^ 12)
    (hub : |q.toQ| < (2:ℚ) ^ (f.bias : Int)) :
    f.isFinite (f.roundE q) = true ∧ f.val (f.roundE q) = roundQ f q.toQ := by
  have h4ew : (4:ℕ) ≤ 2 ^ f.ew := by
    calc (4:ℕ) = 2 ^ 2 := by norm_num
      _ ≤ 2 ^ f.ew := Nat.pow_le_pow_right (by norm_num) hew
  unfold Fmt.roundE
  by_cases h0 : q.num = 0
  · rw [if_pos h0]
    have htq : q.toQ = 0 := by
      unfold Q2.toQ
      rw [h0]
      norm_num
    obtain ⟨hsgn, hexf, hman⟩ := encode_fields f 0 0 0 (by norm_num)
      (Nat.pos_pow_of_pos _ (by norm_num)) (Nat.pos_pow_of_pos _ (by norm_num))
    have henc : f.encode 0 0 0 = 0 := by
      unfold Fmt.encode
      ring
    rw [htq, roundQ_zero, ← henc]
    constructor
    · unfold Fmt.isFinite
      rw [hexf]
      simp only [bne_iff_ne, ne_eq, Fmt.emask]
      omega
    · rw [val_eq f, hsgn, hexf, hman]
      norm_num
  · by_cases hpos : 0 < q.num
    · rw [if_neg h0, if_pos hpos]
      have hna : 0 < q.num.natAbs := by omega
      have htq : q.toQ = (q.num.natAbs : ℚ) / q.den := by
        unfold Q2.toQ
        congr 1
        calc ((q.num : ℤ) : ℚ) = ((q.num.natAbs : ℤ) : ℚ) := by
              rw [Int.natAbs_of_nonneg hpos.le]
          _ = ((q.num.natAbs : ℕ) : ℚ) := Int.cast_natCast _
      have hub' : (q.num.natAbs : ℚ) / q.den < (2:ℚ) ^ (f.bias : Int) := by
        rw [← htq]
        calc q.toQ ≤ |q.toQ| := le_abs_self _
          _ < _ := hub
      obtain ⟨hs, hf, hlt, hv⟩ :=
        roundPos_val f hew hb12 q.num.natAbs q.den hna hden (by omega) hden2 hub'
      exact ⟨hf, by rw [hv, htq]⟩
    · rw [if_neg h0, if_neg hpos]
      have hneg : q.num < 0 := by omega
      have hna : 0 < q.num.natAbs := by omega
      have habs : (q.num.natAbs : ℤ) = -q.num := by omega
      have htq : q.toQ = -((q.num.natAbs : ℚ) / q.den) := by
        unfold Q2.toQ
        rw [show (q.num : ℚ) = -((q.num.natAbs : ℕ) : ℚ) by
          calc (q.num:ℚ) = -((-q.num : ℤ) : ℚ) := by push_cast; ring
            _ = -((q.num.natAbs : ℤ) : ℚ) := by rw [habs]
            _ = -((q.num.natAbs : ℕ) : ℚ) := by rw [Int.cast_natCast]]
        ring
      have hub' : (q.num.natAbs : ℚ) / q.den < (2:ℚ) ^ (f.bias : Int) := by
        have h1 : (q.num.natAbs : ℚ) / q.den = |q.toQ| := by
          rw [htq, abs_neg, abs_of_nonneg (by positivity)]
        rw [h1]
        exact hub
      obtain ⟨hs, hf, hlt, hv⟩ :=
        roundPos_val f hew hb12 q.num.natAbs q.den hna hden (by omega) hden2 hub'
      have henc : f.encode 1 0 0 = 2 ^ f.wTop := by
        unfold Fmt.encode
        ring
      rw [henc]
      obtain ⟨hval, hfin⟩ := val_addSign f _ hlt
      refine ⟨by rw [hfin]; exact hf, ?_⟩
      rw [hval, hv, htq, roundQ_neg]

/-! ## Operation-level correctness (finite, non-overflow range) -/

theorem finite_flags (f : Fmt) (b : Nat) (h : f.isFinite b = true) :
    f.isNan b = false ∧ f.isInf b = false := by
  unfold Fmt.isFinite at h
  have hne : f.expf b ≠ f.emask := by
    simpa using h
  have hbe : (f.expf b == f.emask) = false := by
    simpa using hne
  unfold Fmt.isNan Fmt.isInf
  rw [hbe, Bool.false_and, Bool.false_and]
  exact ⟨rfl, rfl⟩

theorem signedZero_val (f : Fmt) (hew : 2 ≤ f.ew) (s : Nat) (hs : s < 2) :
    f.isFinite (f.signedZero s) = true ∧ f.val (f.signedZero s) = 0 := by
  have h4ew : (4:ℕ) ≤ 2 ^ f.ew := by
    calc (4:ℕ) = 2 ^ 2 := by norm_num
      _ ≤ 2 ^ f.ew := Nat.pow_le_pow_right (by norm_num) hew
  obtain ⟨h1, h2, h3⟩ := encode_fields f s 0 0 hs
    (Nat.pos_pow_of_pos _ (by norm_num)) (Nat.pos_pow_of_pos _ (by norm_num))
  unfold Fmt.signedZero
  constructor
  · unfold Fmt.isFinite
    rw [h2]
    simp only [bne_iff_ne, ne_eq, Fmt.emask]
    omega
  · rw [val_eq f, h1, h2, h3]
    norm_num

theorem fadd_val (f : Fmt) (hew : 2 ≤ f.ew) (hsz : 3 * (f.bias + f.mw + 2) + 2 ≤ 2 ^ 12)
    (a b : Nat) (hfa : f.isFinite a = true) (hfb : f.isFinite b = true)
    (hub : |f.val a + f.val b| < (2:ℚ) ^ (f.bias : Int)) :
    f.isFinite (f.fadd a b) = true ∧ f.val (f.fadd a b) = roundQ f (f.val a + f.val b) := by
  have hb12 : f.bias + f.mw + 2 ≤ 2 ^ 12 := by omega
  obtain ⟨hna, hia⟩ := finite_flags f a hfa
  obtain ⟨hnb, hib⟩ := finite_flags f b hfb
  obtain ⟨hA1, hA2, hA3⟩ := valE_bounds f hew hb12 a
  obtain ⟨hB1, hB2, hB3⟩ := valE_bounds f hew hb12 b
  have htq : (Q2.add (f.valE a) (f.valE b)).toQ = f.val a + f.val b := by
    rw [toQ_add _ _ hA2 hB2, valE_toQ f hew hb12, valE_toQ f hew hb12]
  unfold Fmt.fadd
  rw [if_neg (show ¬((f.isNan a || f.isNan b) = true) by rw [hna, hnb]; decide),
    if_neg (show ¬(f.isInf a = true) by rw [hia]; decide),
    if_neg (show ¬(f.isInf b = true) by rw [hib]; decide)]
  dsimp only []
  by_cases hv : (Q2.add (f.valE a) (f.valE b)).num = 0
  · rw [if_pos hv]
    have hsum0 : f.val a + f.val b = 0 := by
      rw [← htq]
      unfold Q2.toQ
      rw [hv]
      norm_num
    rw [hsum0, roundQ_zero]
    split
    · exact signedZero_val f hew _ (signB_lt f a)
    · have h00 := signedZero_val f hew 0 (by norm_num)
      have hz0 : f.signedZero 0 = 0 := by
        unfold Fmt.signedZero Fmt.encode
        ring
      rw [← hz0]
      exact h00
  · rw [if_neg hv]
    have hden : 0 < (Q2.add (f.valE a) (f.valE b)).den := by
      show 0 < (f.valE a).den * (f.valE b).den
      exact Nat.mul_pos hA2 hB2
    have hnum : (Q2.add (f.valE a) (f.valE b)).num.natAbs < 2 ^ 2 ^ 12 := by
      have hstep : (Q2.add (f.valE a) (f.valE b)).num.natAbs ≤
          2 ^ (f.bias + f.mw + 2) * 2 ^ (f.bias + f.mw + 2) +
          2 ^ (f.bias + f.mw + 2) * 2 ^ (f.bias + f.mw + 2) := by
        show ((f.valE a).num * ((f.valE b).den : Int) +
          (f.valE b).num * ((f.valE a).den : Int)).natAbs ≤ _
        calc ((f.valE a).num * ((f.valE b).den : Int) +
            (f.valE b).num * ((f.valE a).den : Int)).natAbs
            ≤ ((f.valE a).num * ((f.valE b).den : Int)).natAbs +
              ((f.valE b).num * ((f.valE a).den : Int)).natAbs :=
              Int.natAbs_add_le _ _
          _ = (f.valE a).num.natAbs * (f.valE b).den +
              (f.valE b).num.natAbs * (f.valE a).den := by
              rw [Int.natAbs_mul, Int.natAbs_mul]
              simp
          _ ≤ _ := Nat.add_le_add (Nat.mul_le_mul hA1 hB3) (Nat.mul_le_mul hB1 hA3)
      have hpow : 2 ^ (f.bias + f.mw + 2) * 2 ^ (f.bias + f.mw + 2) +
          2 ^ (f.bias + f.mw + 2) * 2 ^ (f.bias + f.mw + 2)
          = 2 ^ (2 * (f.bias + f.mw + 2) + 1) := by
        rw [← pow_add, pow_succ]
        ring
      have hlt : (2:ℕ) ^ (2 * (f.bias + f.mw + 2) + 1) < 2 ^ 2 ^ 12 :=
        Nat.pow_lt_pow_right (by norm_num) (by omega)
      omega
    have hden2 : (Q2.add (f.valE a) (f.valE b)).den < 2 ^ 2 ^ 12 := by
      have hstep : (Q2.add (f.valE a) (f.valE b)).den ≤
          2 ^ (f.bias + f.mw + 2) * 2 ^ (f.bias + f.mw + 2) := by
        show (f.valE a).den * (f.valE b).den ≤ _
        exact Nat.mul_le_mul hA3 hB3
      have hpow : (2:ℕ) ^ (f.bias + f.mw + 2) * 2 ^ (f.bias + f.mw + 2)
          = 2 ^ (2 * (f.bias + f.mw + 2)) := by
        rw [← pow_add]
        ring_nf
      have hlt : (2:ℕ) ^ (2 * (f.bias + f.mw + 2)) < 2 ^ 2 ^ 12 :=
        Nat.pow_lt_pow_right (by norm_num) (by omega)
      omega
    obtain ⟨hf, hv2⟩ := roundE_val f hew hb12 _ hden hnum hden2 (by rw [htq]; exact hub)
    exact ⟨hf, by rw [hv2, htq]⟩

theorem fsub_val (f : Fmt) (hew : 2 ≤ f.ew) (hsz : 3 * (f.bias + f.mw + 2) + 2 ≤ 2 ^ 12)
    (a b : Nat) (hfa : f.isFinite a = true) (hfb : f.isFinite b = true)
    (hub : |f.val a - f.val b| < (2:ℚ) ^ (f.bias : Int)) :
    f.isFinite (f.fsub a b) = true ∧ f.val (f.fsub a b) = roundQ f (f.val a - f.val b) := by
  unfold Fmt.fsub
  have hfb' : f.isFinite (f.negBits b) = true := by
    rw [isFinite_negBits]
    exact hfb
  have h := fadd_val f hew hsz a (f.negBits b) hfa hfb'
    (by rw [val_negBits, ← sub_eq_add_neg]; exact hub)
  rw [val_negBits, ← sub_eq_add_neg] at h
  exact h

theorem ffma_val (f : Fmt) (hew : 2 ≤ f.ew) (hsz : 3 * (f.bias + f.mw + 2) + 2 ≤ 2 ^ 12)
    (a b c : Nat) (hfa : f.isFinite a = true) (hfb : f.isFinite b = true)
    (hfc : f.isFinite c = true)
    (hub : |f.val a * f.val b + f.val c| < (2:ℚ) ^ (f.bias : Int)) :
    f.isFinite (f.ffma a b c) = true ∧
    f.val (f.ffma a b c) = roundQ f (f.val a * f.val b + f.val c) := by
  have hb12 : f.bias + f.mw + 2 ≤ 2 ^ 12 := by omega
  obtain ⟨hna, hia⟩ := finite_flags f a hfa
  obtain ⟨hnb, hib⟩ := finite_flags f b hfb
  obtain ⟨hnc, hic⟩ := finite_flags f c hfc
  obtain ⟨hA1, hA2, hA3⟩ := valE_bounds f hew hb12 a
  obtain ⟨hB1, hB2, hB3⟩ := valE_bounds f hew hb12 b
  obtain ⟨hC1, hC2, hC3⟩ := valE_bounds f hew hb12 c
  have htq : (Q2.add (Q2.mul (f.valE a) (f.valE b)) (f.valE c)).toQ
      = f.val a * f.val b + f.val c := by
    rw [toQ_add _ _ (Nat.mul_pos hA2 hB2) hC2, toQ_mul _ _ hA2 hB2,
      valE_toQ f hew hb12, valE_toQ f hew hb12, valE_toQ f hew hb12]
  unfold Fmt.ffma
  rw [if_neg (show ¬((f.isNan a || f.isNan b || f.isNan c) = true) by
      rw [hna, hnb, hnc]; decide),
    if_neg (show ¬(((f.isInf a && f.isZero b) || (f.isZero a && f.isInf b)) = true) by
      rw [hia, hib]; simp),
    if_neg (show ¬((f.isInf a || f.isInf b) = true) by rw [hia, hib]; decide),
    if_neg (show ¬(f.isInf c = true) by rw [hic]; decide)]
  dsimp only []
  by_cases hv : (Q2.add (Q2.mul (f.valE a) (f.valE b)) (f.valE c)).num = 0
  · rw [if_pos hv]
    have hsum0 : f.val a * f.val b + f.val c = 0 := by
      rw [← htq]
      unfold Q2.toQ
      rw [hv]
      norm_num
    rw [hsum0, roundQ_zero]
    split
    · split
      · exact signedZero_val f hew _ (Nat.mod_lt _ (by norm_num))
      · have h00 := signedZero_val f hew 0 (by norm_num)
        have hz0 : f.signedZero 0 = 0 := by
          unfold Fmt.signedZero Fmt.encode
          ring
        rw [← hz0]
        exact h00
    · have h00 := signedZero_val f hew 0 (by norm_num)
      have hz0 : f.signedZero 0 = 0 := by
        unfold Fmt.signedZero Fmt.encode
        ring
      rw [← hz0]
      exact h00
  · rw [if_neg hv]
    have hden : 0 < (Q2.add (Q2.mul (f.valE a) (f.valE b)) (f.valE c)).den := by
      show 0 < (f.valE a).den * (f.valE b).den * (f.valE c).den
      exact Nat.mul_pos (Nat.mul_pos hA2 hB2) hC2
    have hnum : (Q2.add (Q2.mul (f.valE a) (f.valE b)) (f.valE c)).num.natAbs
        < 2 ^ 2 ^ 12 := by
      have hstep : (Q2.add (Q2.mul (f.valE a) (f.valE b)) (f.valE c)).num.natAbs ≤
          2 ^ (f.bias + f.mw + 2) * 2 ^ (f.bias + f.mw + 2) * 2 ^ (f.bias + f.mw + 2) +
          2 ^ (f.bias + f.mw + 2) * (2 ^ (f.bias + f.mw + 2) * 2 ^ (f.bias + f.mw + 2)) := by
        show ((f.valE a).num * (f.valE b).num * ((f.valE c).den : Int) +
          (f.valE c).num * (((f.valE a).den * (f.valE b).den : ℕ) : Int)).natAbs ≤ _
        calc ((f.valE a).num * (f.valE b).num * ((f.valE c).den : Int) +
            (f.valE c).num * (((f.valE a).den * (f.valE b).den : ℕ) : Int)).natAbs
            ≤ ((f.valE a).num * (f.valE b).num * ((f.valE c).den : Int)).natAbs +
              ((f.valE c).num * (((f.valE a).den * (f.valE b).den : ℕ) : Int)).natAbs :=
              Int.natAbs_add_le _ _
          _ = (f.valE a).num.natAbs * (f.valE b).num.natAbs * (f.valE c).den +
              (f.valE c).num.natAbs * ((f.valE a).den * (f.valE b).den) := by
              rw [Int.natAbs_mul, Int.natAbs_mul, Int.natAbs_mul,
                Int.natAbs_ofNat, Int.natAbs_ofNat]
          _ ≤ _ := Nat.add_le_add
              (Nat.mul_le_mul (Nat.mul_le_mul hA1 hB1) hC3)
              (Nat.mul_le_mul hC1 (Nat.mul_le_mul hA3 hB3))
      have hpow : (2:ℕ) ^ (f.bias + f.mw + 2) * 2 ^ (f.bias + f.mw + 2) *
            2 ^ (f.bias + f.mw + 2) +
          2 ^ (f.bias + f.mw + 2) * (2 ^ (f.bias + f.mw + 2) * 2 ^ (f.bias + f.mw + 2))
          = 2 ^ (3 * (f.bias + f.mw + 2) + 1) := by
        ring
      have hlt : (2:ℕ) ^ (3 * (f.bias + f.mw + 2) + 1) < 2 ^ 2 ^ 12 :=
        Nat.pow_lt_pow_right (by norm_num) (by omega)
      omega
    have hden2 : (Q2.add (Q2.mul (f.valE a) (f.valE b)) (f.valE c)).den < 2 ^ 2 ^ 12 := by
      have hstep : (Q2.add (Q2.mul (f.valE a) (f.valE b)) (f.valE c)).den ≤
          2 ^ (f.bias + f.mw + 2) * 2 ^ (f.bias + f.mw + 2) * 2 ^ (f.bias + f.mw + 2) := by
        show (f.valE a).den * (f.valE b).den * (f.valE c).den ≤ _
        exact Nat.mul_le_mul (Nat.mul_le_mul hA3 hB3) hC3
      have hpow : (2:ℕ) ^ (f.bias + f.mw + 2) * 2 ^ (f.bias + f.mw + 2) *
          2 ^ (f.bias + f.mw + 2) = 2 ^ (3 * (f.bias + f.mw + 2)) := by
        ring
      have hlt : (2:ℕ) ^ (3 * (f.bias + f.mw + 2)) < 2 ^ 2 ^ 12 :=
        Nat.pow_lt_pow_right (by norm_num) (by omega)
      omega
    obtain ⟨hf, hv2⟩ := roundE_val f hew hb12 _ hden hnum hden2 (by rw [htq]; exact hub)
    exact ⟨hf, by rw [hv2, htq]⟩

theorem roundQ_intCast (f : Fmt) (hew : 2 ≤ f.ew) (hmw : 1 ≤ f.mw) (z : Int)
    (hz : z.natAbs ≤ 2 ^ f.mw) : roundQ f (z : ℚ) = (z : ℚ) := by
  by_cases h0 : z = 0
  · rw [h0, Int.cast_zero, roundQ_zero]
  · have hb1 := bias_pos f hew
    have hz0 : (0:ℚ) < |(z:ℚ)| := by
      rw [abs_pos]
      exact_mod_cast h0
    have habs : ((z.natAbs : ℕ) : ℚ) = |(z:ℚ)| := by
      rw [Int.cast_natAbs, Int.cast_abs]
    have hzb : |(z:ℚ)| ≤ (2:ℚ) ^ (f.mw : Int) := by
      rw [← habs]
      calc ((z.natAbs : ℕ) : ℚ) ≤ ((2 ^ f.mw : ℕ) : ℚ) := by exact_mod_cast hz
        _ = (2:ℚ) ^ (f.mw : Int) := by
          push_cast
          rw [zpow_natCast]
    have hlogle : Int.log 2 |(z:ℚ)| ≤ f.mw := by
      by_contra hcon
      push_neg at hcon
      have h1 := Int.zpow_log_le_self (by norm_num : 1 < (2:ℕ)) hz0
      push_cast at h1
      have h2 : (2:ℚ) ^ ((f.mw:Int) + 1) ≤ (2:ℚ) ^ (Int.log 2 |(z:ℚ)|) :=
        zpow_le_zpow_right₀ (by norm_num) (by omega)
      have h3 : (2:ℚ) ^ (f.mw:Int) < (2:ℚ) ^ ((f.mw:Int) + 1) :=
        zpow_lt_zpow_right₀ (by norm_num) (by omega)
      linarith
    have hele : max (Int.log 2 |(z:ℚ)|) (1 - (f.bias:Int)) ≤ f.mw := by
      apply max_le hlogle
      omega
    have htt : ((((f.mw:Int) - max (Int.log 2 |(z:ℚ)|) (1 - (f.bias:Int))).toNat : ℕ) : Int)
        = (f.mw:Int) - max (Int.log 2 |(z:ℚ)|) (1 - (f.bias:Int)) :=
      Int.toNat_of_nonneg (by omega)
    unfold roundQ
    have harg : (z:ℚ) * (2:ℚ) ^ ((f.mw:Int) - max (Int.log 2 |(z:ℚ)|) (1 - (f.bias:Int)))
        = ((z * 2 ^ (((f.mw:Int) - max (Int.log 2 |(z:ℚ)|) (1 - (f.bias:Int))).toNat) : ℤ) : ℚ) := by
      push_cast
      rw [← zpow_natCast (2:ℚ), htt]
    rw [harg, nearestEven_intCast]
    push_cast
    rw [← zpow_natCast (2:ℚ), htt, mul_assoc, ← zpow_add₀ (by norm_num : (2:ℚ) ≠ 0)]
    rw [show (f.mw:Int) - max (Int.log 2 |(z:ℚ)|) (1 - (f.bias:Int)) +
      (max (Int.log 2 |(z:ℚ)|) (1 - (f.bias:Int)) - f.mw) = 0 by ring, zpow_zero, mul_one]

/-! ## The magic-shift rounding trick (double precision) -/

theorem magic_shift_f64 (c x : Nat) (hcf : F64.isFinite c = true)
    (hxf : F64.isFinite x = true)
    (hb : |F64.val x * F64.val c| ≤ 2 ^ 40) :
    F64.isFinite (F64.fsub (F64.vfma shift64 x c) shift64) = true ∧
    F64.val (F64.fsub (F64.vfma shift64 x c) shift64) =
      ((nearestEven (F64.val x * F64.val c) : ℤ) : ℚ) := by
  have hew : 2 ≤ F64.ew := by decide
  have hmw1 : 1 ≤ F64.mw := by decide
  have hsz : 3 * (F64.bias + F64.mw + 2) + 2 ≤ 2 ^ 12 := by decide
  have hfs : F64.isFinite shift64 = true := by decide
  have hf1 : F64.signB shift64 = 0 := by decide
  have hf2 : F64.expf shift64 = 1075 := by decide
  have hf3 : F64.manf shift64 = 2 ^ 51 := by decide
  have hmw : F64.mw = 52 := rfl
  have hbias : F64.bias = 1023 := rfl
  have hS : F64.val shift64 = 3 * 2 ^ 51 := by
    rw [val_eq, hf1, hf2, hf3, hmw, hbias]
    norm_num
  have hbig : (2:ℚ) ^ ((F64.bias : ℕ) : Int) = 2 ^ (1023 : ℕ) := by
    rw [hbias]
    norm_num
  obtain ⟨hvlo, hvhi⟩ := abs_le.1 hb
  have hnum1 : (2:ℚ) ^ 40 + 3 * 2 ^ 51 < 2 ^ (1023 : ℕ) := by norm_num
  have hnum2 : (2:ℚ) ^ 52 ≤ 3 * 2 ^ 51 - 2 ^ 40 := by norm_num
  have hnum3 : (3:ℚ) * 2 ^ 51 + 2 ^ 40 < 2 ^ 53 := by norm_num
  have hvfma : F64.vfma shift64 x c = F64.ffma x c shift64 := rfl
  have hub1 : |F64.val x * F64.val c + F64.val shift64| < (2:ℚ) ^ ((F64.bias : ℕ) : Int) := by
    rw [hS, hbig, abs_lt]
    constructor
    · linarith [(by norm_num : (0:ℚ) < 2 ^ (1023:ℕ))]
    · linarith
  obtain ⟨hzf, hzv⟩ := ffma_val F64 hew hsz x c shift64 hxf hcf hfs hub1
  have hlo : (2:ℚ) ^ 52 ≤ F64.val x * F64.val c + F64.val shift64 := by
    rw [hS]
    linarith
  have hhi : F64.val x * F64.val c + F64.val shift64 < 2 ^ 53 := by
    rw [hS]
    linarith
  have hpos : (0:ℚ) < F64.val x * F64.val c + F64.val shift64 := by
    have : (0:ℚ) < 2 ^ 52 := by norm_num
    linarith
  have hz52 : (2:ℚ) ^ (52 : Int) = 2 ^ (52 : ℕ) := by norm_num
  have hz53 : (2:ℚ) ^ ((52 : Int) + 1) = 2 ^ (53 : ℕ) := by norm_num
  have hlog : Int.log 2 |F64.val x * F64.val c + F64.val shift64| = 52 := by
    rw [abs_of_pos hpos]
    apply intLog_eq_of _ _ hpos
    · rw [hz52]
      exact hlo
    · rw [hz53]
      exact hhi
  have hmax : max (52 : Int) (1 - ((F64.bias : ℕ) : Int)) = 52 := by
    rw [hbias]
    decide
  have hSz : (F64.val shift64) = (((3 * 2 ^ 51 : ℤ) : ℚ)) := by
    rw [hS]
    norm_num
  have hroundZ : roundQ F64 (F64.val x * F64.val c + F64.val shift64)
      = ((nearestEven (F64.val x * F64.val c) : ℤ) : ℚ) + 3 * 2 ^ 51 := by
    unfold roundQ
    rw [hlog, hmax, hmw]
    rw [show (((52:ℕ) : Int)) - (52:Int) = 0 by norm_num,
      show (52:Int) - (((52:ℕ) : Int)) = 0 by norm_num,
      zpow_zero, mul_one, mul_one]
    rw [hSz, nearestEven_add_int _ _ (by norm_num)]
    push_cast
    ring
  have hne_abs : |((nearestEven (F64.val x * F64.val c) : ℤ) : ℚ)| ≤ 2 ^ 40 + 1 / 2 := by
    have herr := nearestEven_err (F64.val x * F64.val c)
    rw [abs_le] at herr ⊢
    constructor
    · linarith
    · linarith
  have hzfin := hzf
  have hzval : F64.val (F64.ffma x c shift64)
      = ((nearestEven (F64.val x * F64.val c) : ℤ) : ℚ) + 3 * 2 ^ 51 := by
    rw [hzv, hroundZ]
  have hub2 : |F64.val (F64.ffma x c shift64) - F64.val shift64|
      < (2:ℚ) ^ ((F64.bias : ℕ) : Int) := by
    rw [hzval, hS, hbig]
    have h1 : ((nearestEven (F64.val x * F64.val c) : ℤ) : ℚ) + 3 * 2 ^ 51 - 3 * 2 ^ 51
        = ((nearestEven (F64.val x * F64.val c) : ℤ) : ℚ) := by ring
    rw [h1]
    calc |((nearestEven (F64.val x * F64.val c) : ℤ) : ℚ)| ≤ 2 ^ 40 + 1 / 2 := hne_abs
      _ < 2 ^ (1023 : ℕ) := by norm_num
  obtain ⟨hrf, hrv⟩ := fsub_val F64 hew hsz (F64.ffma x c shift64) shift64 hzfin hfs hub2
  have hdiff : F64.val (F64.ffma x c shift64) - F64.val shift64
      = ((nearestEven (F64.val x * F64.val c) : ℤ) : ℚ) := by
    rw [hzval, hS]
    ring
  have hnatAbs : (nearestEven (F64.val x * F64.val c)).natAbs ≤ 2 ^ F64.mw := by
    have habs2 : (((nearestEven (F64.val x * F64.val c)).natAbs : ℕ) : ℚ)
        = |((nearestEven (F64.val x * F64.val c) : ℤ) : ℚ)| := by
      rw [Int.cast_natAbs, Int.cast_abs]
    have hle : (((nearestEven (F64.val x * F64.val c)).natAbs : ℕ) : ℚ)
        ≤ ((2 ^ 52 : ℕ) : ℚ) := by
      rw [habs2]
      calc |((nearestEven (F64.val x * F64.val c) : ℤ) : ℚ)| ≤ 2 ^ 40 + 1 / 2 := hne_abs
        _ ≤ ((2 ^ 52 : ℕ) : ℚ) := by norm_num
    rw [hmw]
    exact_mod_cast hle
  rw [hvfma]
  refine ⟨hrf, ?_⟩
  rw [hrv, hdiff, roundQ_intCast F64 hew hmw1 _ hnatAbs]

theorem val_zero (f : Fmt) : f.val 0 = 0 := by
  have h1 : f.signB 0 = 0 := by simp [Fmt.signB]
  have h2 : f.expf 0 = 0 := by simp [Fmt.expf]
  have h3 : f.manf 0 = 0 := by simp [Fmt.manf]
  rw [val_eq, h1, h2, h3]
  norm_num

theorem roundQ_abs_le (f : Fmt) (hew : 2 ≤ f.ew) (hmw : 1 ≤ f.mw) (q : ℚ) :
    |roundQ f q| ≤ 2 * |q| + 1 := by
  by_cases h0 : q = 0
  · rw [h0, roundQ_zero]
    norm_num
  have hb1 := bias_pos f hew
  have habs0 : 0 < |q| := abs_pos.mpr h0
  have hnea : |((nearestEven (q * (2:ℚ) ^ ((f.mw:Int) - max (Int.log 2 |q|) (1 - (f.bias:Int)))) : ℤ) : ℚ)|
      ≤ |q| * (2:ℚ) ^ ((f.mw:Int) - max (Int.log 2 |q|) (1 - (f.bias:Int))) + 1/2 := by
    have herr := nearestEven_err (q * (2:ℚ) ^ ((f.mw:Int) - max (Int.log 2 |q|) (1 - (f.bias:Int))))
    have h1 : |q * (2:ℚ) ^ ((f.mw:Int) - max (Int.log 2 |q|) (1 - (f.bias:Int)))|
        = |q| * (2:ℚ) ^ ((f.mw:Int) - max (Int.log 2 |q|) (1 - (f.bias:Int))) := by
      rw [abs_mul, abs_of_pos (show (0:ℚ) <
        (2:ℚ) ^ ((f.mw:Int) - max (Int.log 2 |q|) (1 - (f.bias:Int))) by positivity)]
    have h2 : |((nearestEven (q * (2:ℚ) ^ ((f.mw:Int) - max (Int.log 2 |q|) (1 - (f.bias:Int)))) : ℤ) : ℚ)|
        ≤ |q * (2:ℚ) ^ ((f.mw:Int) - max (Int.log 2 |q|) (1 - (f.bias:Int)))| + 1/2 := by
      calc |((nearestEven (q * (2:ℚ) ^ ((f.mw:Int) - max (Int.log 2 |q|) (1 - (f.bias:Int)))) : ℤ) : ℚ)|
          = |q * (2:ℚ) ^ ((f.mw:Int) - max (Int.log 2 |q|) (1 - (f.bias:Int)))
              + (((nearestEven (q * (2:ℚ) ^ ((f.mw:Int) - max (Int.log 2 |q|) (1 - (f.bias:Int)))) : ℤ) : ℚ)
                - q * (2:ℚ) ^ ((f.mw:Int) - max (Int.log 2 |q|) (1 - (f.bias:Int))))| := by
            congr 1
            ring
        _ ≤ |q * (2:ℚ) ^ ((f.mw:Int) - max (Int.log 2 |q|) (1 - (f.bias:Int)))|
            + |((nearestEven (q * (2:ℚ) ^ ((f.mw:Int) - max (Int.log 2 |q|) (1 - (f.bias:Int)))) : ℤ) : ℚ)
                - q * (2:ℚ) ^ ((f.mw:Int) - max (Int.log 2 |q|) (1 - (f.bias:Int)))| := abs_add _ _
        _ ≤ _ := by linarith [herr]
    rw [h1] at h2
    exact h2
  unfold roundQ
  rw [abs_mul, abs_of_pos (show (0:ℚ) < (2:ℚ) ^ (max (Int.log 2 |q|) (1 - (f.bias:Int)) - f.mw) by positivity)]
  have hsplit : (2:ℚ) ^ ((f.mw:Int) - max (Int.log 2 |q|) (1 - (f.bias:Int)))
      * (2:ℚ) ^ (max (Int.log 2 |q|) (1 - (f.bias:Int)) - (f.mw:Int)) = 1 := by
    rw [← zpow_add₀ (by norm_num : (2:ℚ) ≠ 0)]
    norm_num
  have hstep : |((nearestEven (q * (2:ℚ) ^ ((f.mw:Int) - max (Int.log 2 |q|) (1 - (f.bias:Int)))) : ℤ) : ℚ)|
      * (2:ℚ) ^ (max (Int.log 2 |q|) (1 - (f.bias:Int)) - (f.mw:Int))
      ≤ |q| + (2:ℚ) ^ (max (Int.log 2 |q|) (1 - (f.bias:Int)) - (f.mw:Int)) / 2 := by
    calc |((nearestEven (q * (2:ℚ) ^ ((f.mw:Int) - max (Int.log 2 |q|) (1 - (f.bias:Int)))) : ℤ) : ℚ)|
        * (2:ℚ) ^ (max (Int.log 2 |q|) (1 - (f.bias:Int)) - (f.mw:Int))
        ≤ (|q| * (2:ℚ) ^ ((f.mw:Int) - max (Int.log 2 |q|) (1 - (f.bias:Int))) + 1/2)
          * (2:ℚ) ^ (max (Int.log 2 |q|) (1 - (f.bias:Int)) - (f.mw:Int)) :=
          mul_le_mul_of_nonneg_right hnea (by positivity)
      _ = |q| + (2:ℚ) ^ (max (Int.log 2 |q|) (1 - (f.bias:Int)) - (f.mw:Int)) / 2 := by
          rw [add_mul, mul_assoc, hsplit, mul_one]
          ring
  have hlast : (2:ℚ) ^ (max (Int.log 2 |q|) (1 - (f.bias:Int)) - (f.mw:Int)) / 2 ≤ |q| + 1 := by
    rcases le_or_lt (1 - (f.bias:Int)) (Int.log 2 |q|) with hc | hc
    · have hee : max (Int.log 2 |q|) (1 - (f.bias:Int)) = Int.log 2 |q| := max_eq_left hc
      have h2e : (2:ℚ) ^ (Int.log 2 |q|) ≤ |q| := by
        have h := Int.zpow_log_le_self (by norm_num : 1 < (2:ℕ)) habs0
        push_cast at h
        exact h
      have hp : (2:ℚ) ^ (max (Int.log 2 |q|) (1 - (f.bias:Int)) - (f.mw:Int))
          ≤ (2:ℚ) ^ (Int.log 2 |q|) := by
        rw [hee]
        apply zpow_le_zpow_right₀ (by norm_num)
        omega
      linarith
    · have hee : max (Int.log 2 |q|) (1 - (f.bias:Int)) = 1 - (f.bias:Int) :=
        max_eq_right (le_of_lt hc)
      have hp : (2:ℚ) ^ (max (Int.log 2 |q|) (1 - (f.bias:Int)) - (f.mw:Int)) ≤ 1 := by
        rw [show (1:ℚ) = (2:ℚ) ^ (0:Int) by norm_num]
        apply zpow_le_zpow_right₀ (by norm_num)
        omega
      linarith
  linarith

/-! ## Exact-zero propagation through the double fused multiply-add -/

theorem f64_ffma_0b0 (b : Nat) (hb : F64.isFinite b = true) : F64.ffma 0 b 0 = 0 := by
  obtain ⟨hnb, hib⟩ := finite_flags F64 b hb
  unfold Fmt.ffma
  rw [if_neg (show ¬((F64.isNan 0 || F64.isNan b || F64.isNan 0) = true) by
      rw [hnb, show F64.isNan 0 = false from by decide]
      decide),
    if_neg (show ¬(((F64.isInf 0 && F64.isZero b) || (F64.isZero 0 && F64.isInf b)) = true) by
      rw [hib, show F64.isInf 0 = false from by decide]
      simp),
    if_neg (show ¬((F64.isInf 0 || F64.isInf b) = true) by
      rw [hib, show F64.isInf 0 = false from by decide]
      decide),
    if_neg (show ¬(F64.isInf 0 = true) by decide)]
  dsimp only []
  rw [if_pos (show (Q2.add (Q2.mul (F64.valE 0) (F64.valE b)) (F64.valE 0)).num = 0 by
      show ((F64.valE 0).num * (F64.valE b).num) * ((F64.valE 0).den : Int)
        + (F64.valE 0).num * (((F64.valE 0).den * (F64.valE b).den : ℕ) : Int) = 0
      rw [show (F64.valE 0).num = 0 from by decide]
      ring)]
  rw [show F64.signB 0 = 0 from by decide,
    if_pos (show ((F64.isZero 0 || F64.isZero b) && F64.isZero 0) = true by
      rw [show F64.isZero 0 = true from by decide]
      simp)]
  by_cases hsb : F64.signB b = 0
  · rw [hsb]
    decide
  · have hsb1 : F64.signB b = 1 := by
      have := signB_lt F64 b
      omega
    rw [hsb1]
    decide

theorem f64_ffma_a00 (a : Nat) (ha : F64.isFinite a = true) : F64.ffma a 0 0 = 0 := by
  obtain ⟨hna, hia⟩ := finite_flags F64 a ha
  unfold Fmt.ffma
  rw [if_neg (show ¬((F64.isNan a || F64.isNan 0 || F64.isNan 0) = true) by
      rw [hna, show F64.isNan 0 = false from by decide]
      decide),
    if_neg (show ¬(((F64.isInf a && F64.isZero 0) || (F64.isZero a && F64.isInf 0)) = true) by
      rw [hia, show F64.isInf 0 = false from by decide]
      simp),
    if_neg (show ¬((F64.isInf a || F64.isInf 0) = true) by
      rw [hia, show F64.isInf 0 = false from by decide]
      decide),
    if_neg (show ¬(F64.isInf 0 = true) by decide)]
  dsimp only []
  rw [if_pos (show (Q2.add (Q2.mul (F64.valE a) (F64.valE 0)) (F64.valE 0)).num = 0 by
      show ((F64.valE a).num * (F64.valE 0).num) * ((F64.valE 0).den : Int)
        + (F64.valE 0).num * (((F64.valE a).den * (F64.valE 0).den : ℕ) : Int) = 0
      rw [show (F64.valE 0).num = 0 from by decide]
      ring)]
  rw [show F64.signB 0 = 0 from by decide,
    if_pos (show ((F64.isZero a || F64.isZero 0) && F64.isZero 0) = true by
      rw [show F64.isZero 0 = true from by decide]
      simp)]
  by_cases hsa : F64.signB a = 0
  · rw [hsa]
    decide
  · have hsa1 : F64.signB a = 1 := by
      have := signB_lt F64 a
      omega
    rw [hsa1]
    decide

/-! ## Kernel: single-precision vector log (src/math/v_logf.c)

All coefficients are given in the source file, so the embedding is fully
concrete.  The scalar fallback logf is an external collaborator and is a
parameter. -/

namespace VLogf

def P7 : Nat := F32.encode 1 124 (0x3e737c / 2)
def P6 : Nat := F32.encode 0 124 (0x5a9aa2 / 2)
def P5 : Nat := F32.encode 1 124 (0x4f9934 / 2)
def P4 : Nat := F32.encode 0 124 (0x961348 / 2)
def P3 : Nat := F32.encode 1 125 (0x00187c / 2)
def P2 : Nat := F32.encode 0 125 (0x555d7c / 2)
def P1 : Nat := F32.encode 1 125 (0xffffc8 / 2)
def Ln2 : Nat := 0x3f317218
def Min : Nat := 0x00800000
def Max : Nat := 0x7f800000
def Mask : Nat := 0x007fffff
def Off : Nat := 0x3f2aaaab

/-- Classifier of v_logf: cmp = u - Min >= Max - Min (u32 wraparound). -/
def logf_cmp (x : Nat) : Bool := decide (Max - Min ≤ u32sub x Min)

/-- The fast path of v_logf, per lane. -/
def logf_fast (x : Nat) : Nat :=
  let u0 := x % 2 ^ 32
  let u1 := u32sub u0 Off
  let n := scvtf F32 (Int.fdiv (toS32 u1) (2 ^ 23))
  let u2 := u1 &&& Mask
  let u3 := u2 + Off
  let r := F32.fsub u3 one32
  let r2 := F32.fmul r r
  let p0 := F32.vfma P5 P6 r
  let q0 := F32.vfma P3 P4 r
  let y0 := F32.vfma P1 P2 r
  let p1 := F32.vfma p0 P7 r2
  let q1 := F32.vfma q0 p1 r2
  let y1 := F32.vfma y0 q1 r2
  let p2 := F32.vfma r Ln2 n
  F32.vfma p2 y1 r2

/-- The v_logf kernel on a four-lane vector; logf_s is the scalar logf. -/
def v_logf (logf_s : Nat → Nat) (x : V4 Nat) : V4 Nat :=
  let cmp := v4map logf_cmp x
  let y := v4map logf_fast x
  if v4any cmp then vcall4 logf_s x y cmp else y

end VLogf

/-! ## Kernel: double-precision vector tan (src/pl/math/v_tan_3u5.c)

The polynomial coefficients and the two-part -pi/2 constant live in the
data file v_tan_data.c, which is not among the sources; they are modelled
from the spec as parameters (a fixed immutable coefficient table). -/

namespace VTan

/-- The contents of __v_tan_data: the two-part negated half-pi constant
and the order-8 polynomial table. -/
structure Data where
  hi : Nat
  lo : Nat
  poly : Nat → Nat

def TwoOverPi : Nat := F64.encode 0 1022 0x45f306dc9c883
def RangeVal : Nat := 0x4160000000000000
def TinyBound : Nat := 0x3e50000000000000

/-- Fast-mode classifier: iax > RangeVal. -/
def tan_cmp (x : Nat) : Bool := decide (RangeVal < x &&& absMask64)

/-- The fast path of v_tan, per lane. -/
def tan_fast (d : Data) (x : Nat) : Nat :=
  let q := F64.fsub (F64.vfma shift64 x TwoOverPi) shift64
  let qi := fcvtzs F64 q
  let r0 := F64.vfma x q d.hi
  let r1 := F64.vfma r0 q d.lo
  let r := F64.fmul r1 half64
  let r2 := F64.fmul r r
  let r4 := F64.fmul r2 r2
  let r8 := F64.fmul r4 r4
  let p0 := estrin7 F64 r2 r4 r8 d.poly 1
  let p1 := F64.vfma (d.poly 0) p0 r2
  let p := F64.vfma r r2 (F64.fmul p1 r)
  let n := F64.vfma negOne64 p p
  let dd := F64.fmul p two64
  let use_recip := qi % 2 == 0
  F64.fdiv (if use_recip then F64.negBits dd else n)
    (if use_recip then n else dd)

/-- The v_tan kernel (fast mode): if any lane is flagged the scalar
fallback is applied to all lanes (v_call_f64 with an all-ones mask). -/
def v_tan (d : Data) (tan_s : Nat → Nat) (x : V2 Nat) : V2 Nat :=
  let cmp := vmap tan_cmp x
  if vany cmp then vcall tan_s x x (vdup true) else vmap (tan_fast d) x

end VTan

/-! ## Kernel: double-precision vector exp (src/math/v_exp.c)

The table __v_exp_data lives in a data file not among the sources and is a
parameter (modelled from the spec: a 2^(i/N) scale-bits lookup table); the
table size configuration V_EXP_TABLE_BITS is 7 or 8 and is a parameter tb.
Both the fast-mode and the exceptions-respected (WANT_SIMD_EXCEPT) builds
are embedded. -/

namespace VExp

def C1 (tb : Nat) : Nat :=
  if tb = 8 then F64.encode 0 1021 0xfffffffffffd4 else F64.encode 0 1021 0xffffffffffd43
def C2 (tb : Nat) : Nat :=
  if tb = 8 then F64.encode 0 1020 0x5555571d6b68c else F64.encode 0 1020 0x55555c75adbb2
def C3 (tb : Nat) : Nat :=
  if tb = 8 then F64.encode 0 1018 0x5555576a59599 else F64.encode 0 1018 0x55555da646206
def InvLn2 (tb : Nat) : Nat :=
  if tb = 8 then F64.encode 0 1031 0x71547652b82fe else F64.encode 0 1030 0x71547652b82fe
def Ln2hi (tb : Nat) : Nat :=
  if tb = 8 then F64.encode 0 1014 0x62e42fefa39ef else F64.encode 0 1015 0x62e42fefa39ef
/-- The 56-bit source literal 0x1.abc9e3b39803f3p-63 (resp. p-64) rounds
to a double with mantissa 0xabc9e3b39803f. -/
def Ln2lo (tb : Nat) : Nat :=
  if tb = 8 then F64.encode 0 959 0xabc9e3b39803f else F64.encode 0 960 0xabc9e3b39803f

/-- Thres = 704.0, the fast-mode classifier threshold. -/
def Thres : Nat := 0x4086000000000000

/-- The shared middle of the kernel, per lane: returns (s, y, n). -/
def exp_mid (tb : Nat) (tab : Nat → Nat) (x : Nat) : Nat × Nat × Nat :=
  let z := F64.vfma shift64 x (InvLn2 tb)
  let u := z
  let n := F64.fsub z shift64
  let r1 := F64.vfma x (F64.negBits (Ln2hi tb)) n
  let r := F64.vfma r1 (F64.negBits (Ln2lo tb)) n
  let e := u <<< (52 - tb) % 2 ^ 64
  let i := u &&& (2 ^ tb - 1)
  let r2 := F64.fmul r r
  let y0 := F64.vfma (C1 tb) (C2 tb) r
  let y1 := F64.vfma y0 (C3 tb) r2
  let y := F64.vfma r y1 r2
  let s := (tab i + e) % 2 ^ 64
  (s, y, n)

/-- The table index of the reduction, per lane (i = u & IndexMask). -/
def exp_index (tb : Nat) (x : Nat) : Nat :=
  F64.vfma shift64 x (InvLn2 tb) &&& (2 ^ tb - 1)

/-- Fast-mode specialcase of v_exp, per lane: the two-step s1 * s2
reconstruction of 2^(n/N). -/
def exp_specialcase (tb : Nat) (s y n : Nat) : Nat :=
  let absn := F64.absBits n
  let b := if F64.fle n 0 then 0x6000000000000000 else 0
  let s1 := u64sub 0x7000000000000000 b
  let s2 := (u64sub s 0x3010000000000000 + b) % 2 ^ 64
  let bigN : Nat := if tb = 8 then 0x4114000000000000 else 0x4104000000000000
  let cmp := F64.fgt absn bigN
  let r1 := F64.fmul s1 s1
  let r0 := F64.fmul (F64.vfma s2 y s2) s1
  if cmp then r1 else r0

/-- The plain fast-path result of v_exp, per lane: fma(s, y, s). -/
def exp_fast (tb : Nat) (tab : Nat → Nat) (b : Nat) : Nat :=
  let m := exp_mid tb tab b
  F64.vfma m.1 m.2.1 m.1

/-- The fast-mode specialcase applied to a lane's (s, y, n). -/
def exp_sc_lane (tb : Nat) (tab : Nat → Nat) (b : Nat) : Nat :=
  let m := exp_mid tb tab b
  exp_specialcase tb m.1 m.2.1 m.2.2

/-- The v_exp kernel, fast-mode build (WANT_SIMD_EXCEPT disabled). -/
def v_exp (tb : Nat) (tab : Nat → Nat) (x : V2 Nat) : V2 Nat :=
  let cmp := vmap (fun b => F64.fgt (F64.absBits b) Thres) x
  if vany cmp then vmap (exp_sc_lane tb tab) x
  else vmap (exp_fast tb tab) x

/-- Exceptions-respected classifier: (asuint(|x|) >> 52) - TinyBound >=
BigBound - TinyBound with TinyBound = 0x200 and BigBound = 0x408. -/
def exp_fenv_cmp (x : Nat) : Bool :=
  decide (0x408 - 0x200 ≤ u64sub (Nat.shiftRight (x &&& absMask64) 52) 0x200)

/-- The input vector actually consumed by the fast path in the
exceptions-respected build: flagged lanes are replaced by 1.0. -/
def exp_fenv_input (x : V2 Nat) : V2 Nat :=
  let cmp := vmap exp_fenv_cmp x
  if vany cmp then vbsl cmp (vdup one64) x else x

/-- The v_exp kernel, exceptions-respected build (WANT_SIMD_EXCEPT):
the fast path runs on exp_fenv_input x, and the fallback is handed the
unmodified original inputs. -/
def v_exp_fenv (tb : Nat) (tab : Nat → Nat) (exp_s : Nat → Nat) (x : V2 Nat) : V2 Nat :=
  let xm := x
  let cmp := vmap exp_fenv_cmp x
  let x2 := exp_fenv_input x
  let y := vmap (exp_fast tb tab) x2
  if vany cmp then vcall exp_s xm y cmp else y

end VExp

/-- C4: in the magic-shift range reduction of v_exp (both table
configurations) and v_tan, for every finite input below the kernel's
classifier threshold (|x| ≤ 704 for exp in fast mode, |x| ≤ 2^23 for
tan), the quotient n = fma(Shift, x, InvC) - Shift is a finite float
whose value is exactly the integer nearest to x * InvC, ties to even
(so n holds an exactly representable integer). -/
theorem C4_magic_shift_round_nearest :
    (∀ tb x, tb = 7 ∨ tb = 8 → F64.isFinite x = true → |F64.val x| ≤ 704 →
      F64.isFinite (F64.fsub (F64.vfma shift64 x (VExp.InvLn2 tb)) shift64) = true ∧
      F64.val (F64.fsub (F64.vfma shift64 x (VExp.InvLn2 tb)) shift64) =
        ((nearestEven (F64.val x * F64.val (VExp.InvLn2 tb)) : ℤ) : ℚ)) ∧
    (∀ x, F64.isFinite x = true → |F64.val x| ≤ 2 ^ 23 →
      F64.isFinite (F64.fsub (F64.vfma shift64 x VTan.TwoOverPi) shift64) = true ∧
      F64.val (F64.fsub (F64.vfma shift64 x VTan.TwoOverPi) shift64) =
        ((nearestEven (F64.val x * F64.val VTan.TwoOverPi) : ℤ) : ℚ)) := by
  constructor
  · intro tb x htb hxf hxb
    have hcf : F64.isFinite (VExp.InvLn2 tb) = true := by
      rcases htb with h | h <;> rw [h] <;> decide
    have hcb : 0 ≤ F64.val (VExp.InvLn2 tb) ∧ F64.val (VExp.InvLn2 tb) ≤ 1024 := by
      rcases htb with h | h <;> rw [h]
      · have hf1 : F64.signB (VExp.InvLn2 7) = 0 := by decide
        have hf2 : F64.expf (VExp.InvLn2 7) = 1030 := by decide
        have hf3 : F64.manf (VExp.InvLn2 7) = 0x71547652b82fe := by decide
        rw [val_eq, hf1, hf2, hf3, show F64.mw = 52 from rfl, show F64.bias = 1023 from rfl]
        norm_num
      · have hf1 : F64.signB (VExp.InvLn2 8) = 0 := by decide
        have hf2 : F64.expf (VExp.InvLn2 8) = 1031 := by decide
        have hf3 : F64.manf (VExp.InvLn2 8) = 0x71547652b82fe := by decide
        rw [val_eq, hf1, hf2, hf3, show F64.mw = 52 from rfl, show F64.bias = 1023 from rfl]
        norm_num
    apply magic_shift_f64 _ _ hcf hxf
    calc |F64.val x * F64.val (VExp.InvLn2 tb)|
        = |F64.val x| * |F64.val (VExp.InvLn2 tb)| := abs_mul _ _
      _ ≤ 704 * 1024 := by
          apply mul_le_mul hxb _ (abs_nonneg _) (by norm_num)
          rw [abs_of_nonneg hcb.1]
          exact hcb.2
      _ ≤ 2 ^ 40 := by norm_num
  · intro x hxf hxb
    have hcf : F64.isFinite VTan.TwoOverPi = true := by decide
    have hcb : 0 ≤ F64.val VTan.TwoOverPi ∧ F64.val VTan.TwoOverPi ≤ 1 := by
      have hf1 : F64.signB VTan.TwoOverPi = 0 := by decide
      have hf2 : F64.expf VTan.TwoOverPi = 1022 := by decide
      have hf3 : F64.manf VTan.TwoOverPi = 0x45f306dc9c883 := by decide
      rw [val_eq, hf1, hf2, hf3, show F64.mw = 52 from rfl, show F64.bias = 1023 from rfl]
      norm_num
    apply magic_shift_f64 _ _ hcf hxf
    calc |F64.val x * F64.val VTan.TwoOverPi|
        = |F64.val x| * |F64.val VTan.TwoOverPi| := abs_mul _ _
      _ ≤ 2 ^ 23 * 1 := by
          apply mul_le_mul hxb _ (abs_nonneg _) (by norm_num)
          rw [abs_of_nonneg hcb.1]
          exact hcb.2
      _ ≤ 2 ^ 40 := by norm_num

/-- Witness for C4 at the concrete input 1.0 (both kernels; exp with
the 8-bit table). -/
theorem C4_witness :
    F64.isFinite (F64.fsub (F64.vfma shift64 one64 (VExp.InvLn2 8)) shift64) = true ∧
    F64.isFinite (F64.fsub (F64.vfma shift64 one64 VTan.TwoOverPi) shift64) = true ∧
    F64.val (F64.fsub (F64.vfma shift64 one64 VTan.TwoOverPi) shift64) =
      ((nearestEven (F64.val one64 * F64.val VTan.TwoOverPi) : ℤ) : ℚ) := by
  have hs : F64.signB one64 = 0 := by decide
  have he : F64.expf one64 = 1023 := by decide
  have hm : F64.manf one64 = 0 := by decide
  have hone : F64.val one64 = 1 := by
    rw [val_eq, hs, he, hm, show F64.mw = 52 from rfl, show F64.bias = 1023 from rfl]
    norm_num
  have habs : |F64.val one64| ≤ 704 := by
    rw [hone]
    norm_num
  have habs2 : |F64.val one64| ≤ 2 ^ 23 := by
    rw [hone]
    norm_num
  exact ⟨(C4_magic_shift_round_nearest.1 8 one64 (Or.inr rfl) (by decide) habs).1,
    C4_magic_shift_round_nearest.2 one64 (by decide) habs2⟩



/-! ## Kernel: double-precision vector log1p (src/pl/math/v_log1p_2u5.c)

The coefficient table __log1p_data lives in a data file not among the
sources; it is a parameter (modelled from the spec).  The kernel is
embedded in its exceptions-respected build, in which flagged lanes are
substituted with 0 before the fast path. -/

namespace VLog1p

def Ln2Hi : Nat := F64.encode 0 1022 0x62e42fefa3800
def Ln2Lo : Nat := F64.encode 0 978 0xef35793c76730
def HfRt2Top : Nat := 0x3fe6a09e00000000
def OneMHfRt2Top : Nat := 0x00095f6200000000
def OneTop12 : Nat := 0x3ff
def BottomMask : Nat := 0xffffffff

/-- Classifier: |x| >= Inf, or x <= -1, or x = -0. -/
def log1p_special (x : Nat) : Bool :=
  decide (0x7ff0000000000000 ≤ x &&& absMask64) ||
  decide (0xbff0000000000000 ≤ x % 2 ^ 64) ||
  (x % 2 ^ 64 == 0x8000000000000000)

def eval_poly (c : Nat → Nat) (fv : Nat) : Nat :=
  let f2 := F64.fmul fv fv
  let f4 := F64.fmul f2 f2
  let f8 := F64.fmul f4 f4
  estrin18 F64 fv f2 f4 f8 (F64.fmul f8 f8) c

/-- The fast path of v_log1p, per lane. -/
def log1p_fast (c : Nat → Nat) (x : Nat) : Nat :=
  let m := F64.fadd x one64
  let mi := m
  let u := (mi + OneMHfRt2Top) % 2 ^ 64
  let ki : Int := (u >>> 52 : Int) - OneTop12
  let k := scvtf F64 ki
  let utop := u &&& 0x000fffff00000000 + HfRt2Top
  let u_red := utop ||| (mi &&& BottomMask)
  let fv := F64.fsub u_red one64
  let cm := F64.fdiv (F64.fsub x (F64.fsub m one64)) m
  let p := eval_poly c fv
  let ylo := F64.vfma cm k Ln2Lo
  let yhi := F64.vfma fv k Ln2Hi
  F64.vfma (F64.fadd ylo yhi) (F64.fmul fv fv) p

/-- The input vector actually consumed by the fast path in the
exceptions-respected build: flagged lanes are replaced by 0. -/
def log1p_fenv_input (x : V2 Nat) : V2 Nat :=
  let sp := vmap log1p_special x
  if vany sp then vbsl sp (vdup 0) x else x

/-- The v_log1p kernel, exceptions-respected build: the fallback is
handed the original bit patterns ix. -/
def v_log1p_fenv (c : Nat → Nat) (log1p_s : Nat → Nat) (x : V2 Nat) : V2 Nat :=
  let ix := x
  let sp := vmap log1p_special x
  let x2 := log1p_fenv_input x
  let y := vmap (log1p_fast c) x2
  if vany sp then vcall log1p_s ix y sp else y

end VLog1p

/-! ## Kernel: double-precision vector expm1 (src/pl/math/v_expm1_2u5.c)

The coefficient table is given literally in the source file, so the fast
path is fully concrete.  The scalar fallback expm1 is a parameter. -/

namespace VExpm1

def poly : Nat → Nat
  | 0 => F64.encode 0 1022 0x0000000000000
  | 1 => F64.encode 0 1020 0x5555555555559
  | 2 => F64.encode 0 1018 0x555555555554b
  | 3 => F64.encode 0 1016 0x111111110f663
  | 4 => F64.encode 0 1013 0x6c16c16c1b5f3
  | 5 => F64.encode 0 1010 0xa01a01affa35d
  | 6 => F64.encode 0 1007 0xa01a018b4ecbb
  | 7 => F64.encode 0 1004 0x71ddf82db5bb4
  | 8 => F64.encode 0 1001 0x27e517fc0d54b
  | 9 => F64.encode 0 997 0xaf5eedae67435
  | _ => F64.encode 0 994 0x1f143d060a28a

def invln2 : Nat := F64.encode 0 1023 0x71547652b82fe
def ln2hi : Nat := F64.encode 0 1022 0x62e42fefa39ef
def ln2lo : Nat := F64.encode 0 967 0xabc9e3b39803f
def BigBound : Nat := 0x40862b7d369a5aa9
def TinyBound : Nat := 0x3cc0000000000000
def ExponentBias : Nat := 0x3ff0000000000000

/-- The fast path of v_expm1, per lane. -/
def expm1_fast (x : Nat) : Nat :=
  let n := F64.fsub (F64.vfma shift64 invln2 x) shift64
  let i := fcvtzs F64 n
  let f0 := F64.vfms x n ln2hi
  let fv := F64.vfms f0 n ln2lo
  let f2 := F64.fmul fv fv
  let f4 := F64.fmul f2 f2
  let f8 := F64.fmul f4 f4
  let p := F64.vfma fv f2 (estrin10 F64 fv f2 f4 f8 poly)
  let t := (ofS64 (i * 2 ^ 52) + ExponentBias) % 2 ^ 64
  F64.vfma (F64.fsub t one64) p t

/-- Fast-mode classifier: large input, NaN and Inf, or -0. -/
def expm1_special (x : Nat) : Bool :=
  decide (BigBound ≤ x &&& absMask64) || (x % 2 ^ 64 == 0x8000000000000000)

/-- The v_expm1 kernel, fast-mode build. -/
def v_expm1 (expm1_s : Nat → Nat) (x : V2 Nat) : V2 Nat :=
  let sp := vmap expm1_special x
  let y := vmap expm1_fast x
  if vany sp then vcall expm1_s x y sp else y

/-- Exceptions-respected classifier: also flags tiny inputs. -/
def expm1_fenv_special (x : Nat) : Bool :=
  decide (BigBound ≤ x &&& absMask64) ||
  decide (x &&& absMask64 ≤ TinyBound)

/-- The v_expm1 kernel, exceptions-respected build: if any lane is
flagged, the scalar fallback is applied to all lanes. -/
def v_expm1_fenv (expm1_s : Nat → Nat) (x : V2 Nat) : V2 Nat :=
  let sp := vmap expm1_fenv_special x
  if vany sp then vcall expm1_s x x (vdup true) else vmap expm1_fast x

end VExpm1

/-! ## Kernel: single-precision vector expm1 (src/pl/math/v_expm1f_1u6.c)

The coefficient table __expm1f_poly lives in a data file not among the
sources; it is a parameter (modelled from the spec). -/

namespace VExpm1f

def Shift : Nat := 0x4b400000
def InvLn2 : Nat := 0x3fb8aa3b
def MLn2hi : Nat := 0xbf317200
def MLn2lo : Nat := 0xb5bfbe8e
def One : Nat := 0x3f800000
def SpecialBound : Nat := 0x42af5e20
def TinyBound : Nat := 0x34000000

/-- The fast path of v_expm1f, per lane. -/
def expm1f_fast (c : Nat → Nat) (x : Nat) : Nat :=
  let j := F32.fsub (F32.vfma Shift InvLn2 x) Shift
  let i := fcvtzs F32 j
  let f0 := F32.vfma x j MLn2hi
  let fv := F32.vfma f0 j MLn2lo
  let p0 := F32.vfma (c 3) (c 4) fv
  let p1 := F32.vfma (c 2) p0 fv
  let p2 := F32.vfma (c 1) p1 fv
  let p3 := F32.vfma (c 0) p2 fv
  let p := F32.vfma fv (F32.fmul fv fv) p3
  let t := (ofS32 (i * 2 ^ 23) + One) % 2 ^ 32
  F32.vfma (F32.fsub t one32) p t

/-- Fast-mode classifier: very large values, NaN, Inf and -0. -/
def expm1f_special (x : Nat) : Bool :=
  decide (SpecialBound ≤ x &&& 0x7fffffff) || (x % 2 ^ 32 == 0x80000000)

/-- The v_expm1f kernel, fast-mode build. -/
def v_expm1f (c : Nat → Nat) (expm1f_s : Nat → Nat) (x : V4 Nat) : V4 Nat :=
  let sp := v4map expm1f_special x
  let y := v4map (expm1f_fast c) x
  if v4any sp then vcall4 expm1f_s x y sp else y

end VExpm1f

/-! ## Kernel: double-precision vector log10 (src/pl/math/v_log10_2u5.c)

The data __v_log10_data (polynomial, invln10 and log10_2 constants, and
the (invc, log10c) lookup table) lives in a data file not among the
sources; they are parameters (modelled from the spec), as is the table
size configuration V_LOG10_TABLE_BITS. -/

namespace VLog10

def OFF : Nat := 0x3fe6900900000000
def BigBound : Nat := 0x7ff0000000000000
def TinyBound : Nat := 0x0010000000000000

/-- The lookup-table index of the reduction, per lane. -/
def log10_index (tbits : Nat) (x : Nat) : Nat :=
  (u64sub x OFF) >>> (52 - tbits) % 2 ^ tbits

/-- The fast path of v_log10, per lane; tab i = (invc, log10c). -/
def log10_fast (tbits : Nat) (tab : Nat → Nat × Nat) (poly : Nat → Nat)
    (invln10 log10_2 : Nat) (x : Nat) : Nat :=
  let ix := x % 2 ^ 64
  let tmp := u64sub ix OFF
  let i := tmp >>> (52 - tbits) % 2 ^ tbits
  let k := asr64 tmp 52
  let iz := u64sub ix (tmp &&& 0xfff0000000000000)
  let z := iz
  let e := tab i
  let r := F64.vfma negOne64 z e.1
  let kd := scvtf F64 k
  let w := F64.vfma e.2 r invln10
  let hi := F64.vfma w kd log10_2
  let r2 := F64.fmul r r
  let y0 := F64.vfma (poly 2) (poly 3) r
  let p := F64.vfma (poly 0) (poly 1) r
  let y1 := F64.vfma y0 (poly 4) r2
  let y2 := F64.vfma p y1 r2
  F64.vfma hi y2 r2

/-- Classifier: ix - TinyBound >= BigBound - TinyBound. -/
def log10_cmp (x : Nat) : Bool :=
  decide (BigBound - TinyBound ≤ u64sub x TinyBound)

/-- The v_log10 kernel. -/
def v_log10 (tbits : Nat) (tab : Nat → Nat × Nat) (poly : Nat → Nat)
    (invln10 log10_2 : Nat) (log10_s : Nat → Nat) (x : V2 Nat) : V2 Nat :=
  let cmp := vmap log10_cmp x
  let y := vmap (log10_fast tbits tab poly invln10 log10_2) x
  if vany cmp then vcall log10_s x y cmp else y

end VLog10

/-! ## Kernel: double-precision SVE log2 (src/pl/math/sv_log2_3u.c)

SVE kernels compute lane-wise under a governing predicate; the model is
per active lane.  The data __v_log2_data (polynomial and (invc, log2c)
table) and the table size V_LOG2_TABLE_BITS are parameters (modelled from
the spec); sv_call_f64 applies the scalar fallback to flagged lanes. -/

namespace SvLog2

def InvLn2 : Nat := F64.encode 0 1023 0x71547652b82fe
def OFF : Nat := 0x3fe6900900000000

/-- Classifier: top16 - 0x0010 >= 0x7ff0 - 0x0010 (subnormal, zero,
negative, Inf, NaN). -/
def log2_special (x : Nat) : Bool :=
  decide (0x7ff0 - 0x0010 ≤ u64sub ((x % 2 ^ 64) >>> 48) 0x0010)

/-- The fast path of sv_log2, per active lane; tab i = (invc, log2c). -/
def log2_fast (tbits : Nat) (tab : Nat → Nat × Nat) (poly : Nat → Nat)
    (x : Nat) : Nat :=
  let ix := x % 2 ^ 64
  let tmp := u64sub ix OFF
  let i := tmp >>> (52 - tbits) % 2 ^ tbits
  let k := scvtf F64 (asr64 tmp 52)
  let z := u64sub ix (tmp &&& 0xfff0000000000000)
  let invc := (tab i).1
  let log2c := (tab i).2
  let r := F64.vfma negOne64 invc z
  let w := F64.vfma log2c InvLn2 r
  let r2 := F64.fmul r r
  let p23 := F64.vfma (poly 2) r (poly 3)
  let p01 := F64.vfma (poly 0) r (poly 1)
  let y0 := F64.vfma p23 r2 (poly 4)
  let y1 := F64.vfma p01 r2 y0
  F64.vfma (F64.fadd k w) r2 y1

/-- The sv_log2 kernel, per active lane. -/
def sv_log2 (tbits : Nat) (tab : Nat → Nat × Nat) (poly : Nat → Nat)
    (log2_s : Nat → Nat) (x : Nat) : Nat :=
  if log2_special x then log2_s x else log2_fast tbits tab poly x

end SvLog2

/-! ## Kernel: double-precision SVE sin (src/pl/math/sv_sin_3u.c)

The kernel is built on the hardware trigonometric instructions FTSSEL,
FTSMUL and FTMAD, whose semantics are architectural and not part of the
sources; they are parameters (arbitrary lane-wise functions).  The model
is per active lane. -/

namespace SvSin

/-- The SVE trigonometric instruction semantics: tssel and tsmul take the
reduced argument and the bits of q; tmad takes an accumulator, the squared
argument and the coefficient index. -/
structure Ops where
  tssel : Nat → Nat → Nat
  tsmul : Nat → Nat → Nat
  tmad : Nat → Nat → Nat → Nat

def InvPio2 : Nat := F64.encode 0 1022 0x45f306dc9c882
def NegPio2_1 : Nat := F64.encode 1 1023 0x921fb50000000
def NegPio2_2 : Nat := F64.encode 1 997 0x110b460000000
def NegPio2_3 : Nat := F64.encode 1 969 0x1a62633145c07
def RangeVal : Nat := 0x4160000000000000

/-- Classifier: bits of |x| >= bits of 2^23 (unsigned compare of the
reinterpreted patterns). -/
def sin_cmp (x : Nat) : Bool := decide (RangeVal ≤ x &&& absMask64)

/-- The fast path of sv_sin, per active lane. -/
def sin_fast (ops : Ops) (x : Nat) : Nat :=
  let r0 := x &&& absMask64
  let sign := x &&& 0x8000000000000000
  let q := F64.vfma shift64 r0 InvPio2
  let n := F64.fsub q shift64
  let r1 := F64.vfma r0 n NegPio2_1
  let r2 := F64.vfma r1 n NegPio2_2
  let r3 := F64.vfma r2 n NegPio2_3
  let fsel := ops.tssel r3 q
  let rr := ops.tsmul r3 q
  let y0 := ops.tmad 0 rr 7
  let y1 := ops.tmad y0 rr 6
  let y2 := ops.tmad y1 rr 5
  let y3 := ops.tmad y2 rr 4
  let y4 := ops.tmad y3 rr 3
  let y5 := ops.tmad y4 rr 2
  let y6 := ops.tmad y5 rr 1
  let y7 := ops.tmad y6 rr 0
  let y := F64.fmul fsel y7
  y ^^^ sign

/-- The sv_sin kernel, per active lane. -/
def sv_sin (ops : Ops) (sin_s : Nat → Nat) (x : Nat) : Nat :=
  if sin_cmp x then sin_s x else sin_fast ops x

end SvSin

/-! ## Kernel: double-precision vector sinh (src/pl/math/v_sinh_3u.c)

The inlined expm1 helper uses the coefficient table __expm1_poly, which
lives in a data file not among the sources; it is a parameter (modelled
from the spec: the shared expm1 polynomial data). -/

namespace VSinh

def InvLn2 : Nat := F64.encode 0 1023 0x71547652b82fe
def MLn2hi : Nat := F64.encode 1 1022 0x62e42fefa39ef
def MLn2lo : Nat := F64.encode 1 967 0xabc9e3b39803f
def Half : Nat := 0x3fe0000000000000
def One : Nat := 0x3ff0000000000000
def BigBound : Nat := 0x4080000000000000
def TinyBound : Nat := 0x3e50000000000000

/-- The inlined expm1 of v_sinh, per lane, over the coefficient table. -/
def expm1_inline (ec : Nat → Nat) (x : Nat) : Nat :=
  let j := F64.fsub (F64.vfma shift64 InvLn2 x) shift64
  let i := fcvtzs F64 j
  let f0 := F64.vfma x j MLn2hi
  let fv := F64.vfma f0 j MLn2lo
  let f2 := F64.fmul fv fv
  let f4 := F64.fmul f2 f2
  let f8 := F64.fmul f4 f4
  let p := F64.vfma fv f2 (estrin10 F64 fv f2 f4 f8 ec)
  let t := (ofS64 (i * 2 ^ 52) + One) % 2 ^ 64
  F64.vfma (F64.fsub t one64) p t

/-- The fast path of v_sinh, per lane. -/
def sinh_fast (ec : Nat → Nat) (x : Nat) : Nat :=
  let ix := x % 2 ^ 64
  let iax := ix &&& absMask64
  let sign := ix &&& 0x8000000000000000
  let halfsign := sign ||| Half
  let t := expm1_inline ec iax
  F64.fmul (F64.fadd t (F64.fdiv t (F64.fadd t one64))) halfsign

/-- Fast-mode classifier: iax >= BigBound. -/
def sinh_special (x : Nat) : Bool := decide (BigBound ≤ x &&& absMask64)

/-- The v_sinh kernel (fast mode): if any lane is flagged the scalar
fallback is applied to all lanes (v_call_f64 with an all-ones mask). -/
def v_sinh (ec : Nat → Nat) (sinh_s : Nat → Nat) (x : V2 Nat) : V2 Nat :=
  let sp := vmap sinh_special x
  if vany sp then vcall sinh_s x x (vdup true) else vmap (sinh_fast ec) x

end VSinh

/-! ## Kernel: double-precision vector erfc (src/pl/math/v_erfc_4u.c)

The interval data __v_erfc_data (per-interval polynomials and interval
bounds), the interval count ERFC_NUM_INTERVALS, and the auxiliary
double-double exponential __v_exp_tail are not among the sources; they
are parameters (modelled from the spec). -/

namespace VErfc

def Scale : Nat := F64.encode 0 1050 0x2000000

/-- Accurate evaluation of exp(-a^2) by a Dekker two-product and the
auxiliary exponential vtail, per lane. -/
def v_eval_gauss (vtail : Nat → Nat → Nat) (a : Nat) : Nat :=
  let a2 := F64.fmul a a
  let a_hi0 := F64.negBits (F64.vfma (F64.negBits a) Scale a)
  let a_hi := F64.vfma a_hi0 Scale a
  let a_lo := F64.fsub a a_hi
  let e2a := F64.vfma a2 (F64.negBits a_hi) a_hi
  let e2b := F64.vfma e2a (F64.negBits a_hi) a_lo
  let e2c := F64.vfma e2b (F64.negBits a_lo) a_hi
  let e2 := F64.vfma e2c (F64.negBits a_lo) a_lo
  vtail (F64.negBits a2) e2

/-- The raw interval index before clamping, per lane: the exponent of
(|x|+1)^4 (u64 subtraction wraps). -/
def erfc_index_raw (x : Nat) : Nat :=
  let a := F64.absBits x
  let xp1a := F64.fadd a one64
  let xp1b := F64.fmul xp1a xp1a
  let xp1 := F64.fmul xp1b xp1b
  u64sub (xp1 >>> 52) 1023

/-- The clamped interval index, per lane: the index cannot exceed the
number of polynomials. -/
def erfc_index (nInt : Nat) (x : Nat) : Nat :=
  if erfc_index_raw x ≤ nInt then erfc_index_raw x else nInt

/-- fac, per lane: 2.0 where the sign bit is set, +0.0 otherwise. -/
def erfc_fac (x : Nat) : Nat :=
  ((x % 2 ^ 64) >>> 63) <<< 62

/-- atop, per lane: the 11-bit exponent field of the pattern. -/
def erfc_atop (x : Nat) : Nat := (x % 2 ^ 64) >>> 52 &&& 0x7ff

/-- Classifier cmp: small inputs, NaN and Inf. -/
def erfc_cmp (x : Nat) : Bool :=
  decide (0x7ff - 0x3cd ≤ u64sub (erfc_atop x) 0x3cd)

/-- out-of-bounds predicate: atop >= 0x404, that is |x| >= 32. -/
def erfc_oob (x : Nat) : Bool := decide (0x404 ≤ erfc_atop x)

/-- The main path of v_erfc, per lane ( P i j is the j-th coefficient of
the i-th interval polynomial, xint the interval bounds table). -/
def erfc_main (nInt : Nat) (P : Nat → Nat → Nat) (xint : Nat → Nat)
    (vtail : Nat → Nat → Nat) (x : Nat) : Nat :=
  let fac := erfc_fac x
  let a := F64.absBits x
  let i := erfc_index nInt x
  let z := F64.fsub a (xint i)
  let p := hornerN F64 z (P i) 12 0
  let e := v_eval_gauss vtail a
  let sign := (x % 2 ^ 64) &&& 0x8000000000000000
  let p2 := p ^^^ sign
  F64.vfma fac p2 e

/-- The v_erfc kernel on a two-lane vector. -/
def v_erfc (nInt : Nat) (P : Nat → Nat → Nat) (xint : Nat → Nat)
    (vtail : Nat → Nat → Nat) (erfc_s : Nat → Nat) (x : V2 Nat) : V2 Nat :=
  let cmp := vmap erfc_cmp x
  let oob := vmap erfc_oob x
  let fac := vmap erfc_fac x
  if vall oob && vany (vmap not cmp) then fac
  else
    let y := vmap (erfc_main nInt P xint vtail) x
    if vany cmp then vcall erfc_s x y cmp else y

end VErfc

/-! ## Helper lemmas on the erfc bit manipulations -/

theorem erfc_atop_eq_expf (x : Nat) : VErfc.erfc_atop x = F64.expf x := by
  unfold VErfc.erfc_atop Fmt.expf
  rw [Nat.shiftRight_eq_div_pow]
  have h1 : (0x7ff : Nat) = 2 ^ 11 - 1 := by norm_num
  rw [h1, Nat.and_pow_two_sub_one_eq_mod]
  have h2 : (2 : Nat) ^ 64 = 2 ^ 52 * 2 ^ 12 := by norm_num
  rw [h2, Nat.mod_mul_right_div_self]
  rw [Nat.mod_mod_of_dvd _ (by norm_num : (2 : Nat) ^ 11 ∣ 2 ^ 12)]
  rfl

theorem erfc_atop_le (x : Nat) (h : F64.isFinite x) :
    VErfc.erfc_atop x ≤ 0x7fe := by
  rw [erfc_atop_eq_expf]
  unfold Fmt.isFinite at h
  have h2 : F64.expf x ≠ F64.emask := by simpa using h
  have h3 : F64.expf x < 2 ^ 11 := Nat.mod_lt _ (by norm_num)
  have h4 : F64.emask = 2047 := by rfl
  omega

theorem erfc_fac_eq (x : Nat) :
    VErfc.erfc_fac x = if F64.signB x = 1 then two64 else 0 := by
  unfold VErfc.erfc_fac Fmt.signB
  rw [Nat.shiftRight_eq_div_pow, Nat.shiftLeft_eq]
  have h2 : (2 : Nat) ^ 64 = 2 ^ 63 * 2 ^ 1 := by norm_num
  rw [h2, Nat.mod_mul_right_div_self]
  have hw : F64.wTop = 63 := by rfl
  rw [hw]
  have hlt : x / 2 ^ 63 % 2 < 2 := Nat.mod_lt _ (by norm_num)
  interval_cases h : x / 2 ^ 63 % 2 <;> simp [two64]

/-- C6: for every input bit pattern (in particular for lanes flagged
special and still processed speculatively), the lookup-table index
derived by the range reducer is in bounds: the erfc index is clamped to
at most ERFC_NUM_INTERVALS, the exp index is masked with N - 1, and the
log10 index is reduced modulo N, whatever the table-size configuration. -/
theorem C6_table_indices_in_bounds :
    (∀ nInt x, VErfc.erfc_index nInt x ≤ nInt) ∧
    (∀ tb x, VExp.exp_index tb x < 2 ^ tb) ∧
    (∀ tbits x, VLog10.log10_index tbits x < 2 ^ tbits) := by
  refine ⟨fun nInt x => ?_, fun tb x => ?_, fun tbits x => ?_⟩
  · unfold VErfc.erfc_index
    split
    · assumption
    · exact Nat.le_refl _
  · unfold VExp.exp_index
    rw [show (2 : Nat) ^ tb - 1 = 2 ^ tb - 1 from rfl]
    calc F64.vfma shift64 x (VExp.InvLn2 tb) &&& (2 ^ tb - 1)
        = F64.vfma shift64 x (VExp.InvLn2 tb) % 2 ^ tb :=
          Nat.and_pow_two_sub_one_eq_mod _ tb
      _ < 2 ^ tb := Nat.mod_lt _ (Nat.pos_pow_of_pos tb (by norm_num))
  · exact Nat.mod_lt _ (Nat.pos_pow_of_pos tbits (by norm_num))

/-- C10: if every lane of the input is finite with biased exponent at
least 0x404 (so |x| is at least 32; such lanes are never flagged by the
classifier, so the short path is taken), the double-precision vector
erfc returns exactly +0.0 in lanes with the sign bit clear and exactly
2.0 in lanes with the sign bit set. -/
theorem C10_erfc_saturates_large_inputs (nInt : Nat) (P : Nat → Nat → Nat)
    (xint : Nat → Nat) (vtail : Nat → Nat → Nat) (erfc_s : Nat → Nat)
    (x : V2 Nat)
    (h1 : F64.isFinite x.1) (h2 : F64.isFinite x.2)
    (e1 : 0x404 ≤ VErfc.erfc_atop x.1) (e2 : 0x404 ≤ VErfc.erfc_atop x.2) :
    VErfc.v_erfc nInt P xint vtail erfc_s x =
      ((if F64.signB x.1 = 1 then two64 else 0),
       (if F64.signB x.2 = 1 then two64 else 0)) := by
  have l1 := erfc_atop_le x.1 h1
  have l2 := erfc_atop_le x.2 h2
  have ho1 : VErfc.erfc_oob x.1 = true := by
    unfold VErfc.erfc_oob; simpa using e1
  have ho2 : VErfc.erfc_oob x.2 = true := by
    unfold VErfc.erfc_oob; simpa using e2
  have hc1 : VErfc.erfc_cmp x.1 = false := by
    unfold VErfc.erfc_cmp u64sub
    simp only [decide_eq_false_iff_not, not_le]
    omega
  have hc2 : VErfc.erfc_cmp x.2 = false := by
    unfold VErfc.erfc_cmp u64sub
    simp only [decide_eq_false_iff_not, not_le]
    omega
  unfold VErfc.v_erfc
  simp [vmap, vall, vany, ho1, ho2, hc1, hc2, erfc_fac_eq]

/-! ## C8: the log family at input 1.0 -/

theorem logf_fast_one : VLogf.logf_fast one32 = 0 := by decide

/-! ## C2: lane splicing of the special-case fallback -/

/-- The C2 claim as stated, for the two kernels its sources cite: on any
call with some flagged lane, every flagged lane carries the scalar
reference result for that lane's input and every unflagged lane retains
the vectorized fast-path result. -/
def C2Stated : Prop :=
  (∀ (ls : Nat → Nat) (x : V4 Nat),
    v4any (v4map VLogf.logf_cmp x) = true →
    ((VLogf.logf_cmp x.1.1 = true → (VLogf.v_logf ls x).1.1 = ls x.1.1) ∧
     (VLogf.logf_cmp x.1.1 = false →
       (VLogf.v_logf ls x).1.1 = VLogf.logf_fast x.1.1)) ∧
    ((VLogf.logf_cmp x.1.2 = true → (VLogf.v_logf ls x).1.2 = ls x.1.2) ∧
     (VLogf.logf_cmp x.1.2 = false →
       (VLogf.v_logf ls x).1.2 = VLogf.logf_fast x.1.2)) ∧
    ((VLogf.logf_cmp x.2.1 = true → (VLogf.v_logf ls x).2.1 = ls x.2.1) ∧
     (VLogf.logf_cmp x.2.1 = false →
       (VLogf.v_logf ls x).2.1 = VLogf.logf_fast x.2.1)) ∧
    ((VLogf.logf_cmp x.2.2 = true → (VLogf.v_logf ls x).2.2 = ls x.2.2) ∧
     (VLogf.logf_cmp x.2.2 = false →
       (VLogf.v_logf ls x).2.2 = VLogf.logf_fast x.2.2))) ∧
  (∀ (d : VTan.Data) (ts : Nat → Nat) (x : V2 Nat),
    vany (vmap VTan.tan_cmp x) = true →
    ((VTan.tan_cmp x.1 = true → (VTan.v_tan d ts x).1 = ts x.1) ∧
     (VTan.tan_cmp x.1 = false → (VTan.v_tan d ts x).1 = VTan.tan_fast d x.1)) ∧
    ((VTan.tan_cmp x.2 = true → (VTan.v_tan d ts x).2 = ts x.2) ∧
     (VTan.tan_cmp x.2 = false → (VTan.v_tan d ts x).2 = VTan.tan_fast d x.2)))

/-- C2 counterexample: for v_tan the fallback rewrites all lanes, so on
the vector (2^24, 1.0), whose second lane is not flagged, the second
lane carries the scalar result rather than the fast-path result.  The
data table and scalar tan are instantiated concretely. -/
theorem C2_counterexample : ¬ C2Stated := by
  intro h
  have h2 := (h.2 ⟨0, 0, fun _ => 0⟩ (fun _ => 0)
    (0x4170000000000000, one64) (by decide)).2.2 (by decide)
  exact absurd h2 (by decide)

/-- C2 (amended): on any call with some flagged lane, every flagged lane
carries the scalar reference result for that lane's input; in kernels
that pass the classifier predicate to the fallback (here v_logf),
unflagged lanes retain the fast-path result, while in kernels whose
fallback is invoked with an all-ones mask (here v_tan) every lane,
flagged or not, carries the scalar result. -/
theorem C2_amended_special_lanes :
    (∀ (ls : Nat → Nat) (x : V4 Nat),
      v4any (v4map VLogf.logf_cmp x) = true →
      ((VLogf.logf_cmp x.1.1 = true → (VLogf.v_logf ls x).1.1 = ls x.1.1) ∧
       (VLogf.logf_cmp x.1.1 = false →
         (VLogf.v_logf ls x).1.1 = VLogf.logf_fast x.1.1)) ∧
      ((VLogf.logf_cmp x.1.2 = true → (VLogf.v_logf ls x).1.2 = ls x.1.2) ∧
       (VLogf.logf_cmp x.1.2 = false →
         (VLogf.v_logf ls x).1.2 = VLogf.logf_fast x.1.2)) ∧
      ((VLogf.logf_cmp x.2.1 = true → (VLogf.v_logf ls x).2.1 = ls x.2.1) ∧
       (VLogf.logf_cmp x.2.1 = false →
         (VLogf.v_logf ls x).2.1 = VLogf.logf_fast x.2.1)) ∧
      ((VLogf.logf_cmp x.2.2 = true → (VLogf.v_logf ls x).2.2 = ls x.2.2) ∧
       (VLogf.logf_cmp x.2.2 = false →
         (VLogf.v_logf ls x).2.2 = VLogf.logf_fast x.2.2))) ∧
    (∀ (d : VTan.Data) (ts : Nat → Nat) (x : V2 Nat),
      vany (vmap VTan.tan_cmp x) = true →
      (VTan.v_tan d ts x).1 = ts x.1 ∧ (VTan.v_tan d ts x).2 = ts x.2) := by
  constructor
  · intro ls x hx
    have he : VLogf.v_logf ls x =
        vcall4 ls x (v4map VLogf.logf_fast x) (v4map VLogf.logf_cmp x) := by
      unfold VLogf.v_logf
      simp only [hx, if_true]
    rw [he]
    dsimp only [vcall4, v4map]
    exact ⟨⟨fun hl => by rw [hl, if_pos rfl], fun hl => by rw [hl, if_neg Bool.false_ne_true]⟩,
      ⟨fun hl => by rw [hl, if_pos rfl], fun hl => by rw [hl, if_neg Bool.false_ne_true]⟩,
      ⟨fun hl => by rw [hl, if_pos rfl], fun hl => by rw [hl, if_neg Bool.false_ne_true]⟩,
      ⟨fun hl => by rw [hl, if_pos rfl], fun hl => by rw [hl, if_neg Bool.false_ne_true]⟩⟩
  · intro d ts x hx
    unfold VTan.v_tan
    simp only [hx, if_true]
    exact ⟨rfl, rfl⟩

/-- Witness for the amended C2 at concrete inputs: a logf call with lane
(1,1) flagged (input 0) and lane (1,2) unflagged (input 1.0), and a tan
call with lane 1 flagged (2^24) and lane 2 unflagged (1.0). -/
theorem C2_witness :
    (VLogf.v_logf (fun _ => 7) ((0, one32), (one32, one32))).1.1 = 7 ∧
    (VLogf.v_logf (fun _ => 7) ((0, one32), (one32, one32))).1.2 =
      VLogf.logf_fast one32 ∧
    (VTan.v_tan ⟨0, 0, fun _ => 0⟩ (fun _ => 3) (0x4170000000000000, one64)).2 = 3 := by
  have h1 := C2_amended_special_lanes.1 (fun _ => 7)
    ((0, one32), (one32, one32)) (by decide)
  have h2 := C2_amended_special_lanes.2 ⟨0, 0, fun _ => 0⟩ (fun _ => 3)
    (0x4170000000000000, one64) (by decide)
  exact ⟨h1.1.1 (by decide), h1.2.1.2 (by decide), h2.2⟩

/-! ## C3: exceptions-respected builds substitute dummy inputs -/

/-- Dispatch shape of the exceptions-respected v_exp when a lane is
flagged. -/
theorem v_exp_fenv_eq_of_any (tb : Nat) (tab : Nat → Nat) (exp_s : Nat → Nat)
    (x : V2 Nat) (hany : vany (vmap VExp.exp_fenv_cmp x) = true) :
    VExp.v_exp_fenv tb tab exp_s x =
      vcall exp_s x (vmap (VExp.exp_fast tb tab) (VExp.exp_fenv_input x))
        (vmap VExp.exp_fenv_cmp x) := by
  unfold VExp.v_exp_fenv
  dsimp only []
  rw [hany, if_pos rfl]

/-- The substituted fast-path input of the exceptions-respected v_exp
when a lane is flagged. -/
theorem exp_fenv_input_eq_of_any (x : V2 Nat)
    (hany : vany (vmap VExp.exp_fenv_cmp x) = true) :
    VExp.exp_fenv_input x = vbsl (vmap VExp.exp_fenv_cmp x) (vdup one64) x := by
  unfold VExp.exp_fenv_input
  dsimp only []
  rw [hany, if_pos rfl]

/-- Dispatch shape of the exceptions-respected v_log1p when a lane is
flagged. -/
theorem v_log1p_fenv_eq_of_any (c : Nat → Nat) (log1p_s : Nat → Nat)
    (x : V2 Nat) (hany : vany (vmap VLog1p.log1p_special x) = true) :
    VLog1p.v_log1p_fenv c log1p_s x =
      vcall log1p_s x (vmap (VLog1p.log1p_fast c) (VLog1p.log1p_fenv_input x))
        (vmap VLog1p.log1p_special x) := by
  unfold VLog1p.v_log1p_fenv
  dsimp only []
  rw [hany, if_pos rfl]

/-- The substituted fast-path input of the exceptions-respected v_log1p
when a lane is flagged. -/
theorem log1p_fenv_input_eq_of_any (x : V2 Nat)
    (hany : vany (vmap VLog1p.log1p_special x) = true) :
    VLog1p.log1p_fenv_input x =
      vbsl (vmap VLog1p.log1p_special x) (vdup 0) x := by
  unfold VLog1p.log1p_fenv_input
  dsimp only []
  rw [hany, if_pos rfl]

/-- C3: in the WANT_SIMD_EXCEPT builds of v_exp and v_log1p, a flagged
lane's final result is the scalar reference applied to the lane's
original unmodified input, while the vector consumed by the fast path
carries the safe dummy value (1.0 for exp, 0 for log1p) in every flagged
lane, so the fast path never computes on the flagged lanes' true
inputs. -/
theorem C3_fenv_dummy_substitution :
    (∀ (tb : Nat) (tab : Nat → Nat) (exp_s : Nat → Nat) (x : V2 Nat),
      (VExp.exp_fenv_cmp x.1 = true →
        (VExp.v_exp_fenv tb tab exp_s x).1 = exp_s x.1 ∧
        (VExp.exp_fenv_input x).1 = one64) ∧
      (VExp.exp_fenv_cmp x.2 = true →
        (VExp.v_exp_fenv tb tab exp_s x).2 = exp_s x.2 ∧
        (VExp.exp_fenv_input x).2 = one64)) ∧
    (∀ (c : Nat → Nat) (log1p_s : Nat → Nat) (x : V2 Nat),
      (VLog1p.log1p_special x.1 = true →
        (VLog1p.v_log1p_fenv c log1p_s x).1 = log1p_s x.1 ∧
        (VLog1p.log1p_fenv_input x).1 = 0) ∧
      (VLog1p.log1p_special x.2 = true →
        (VLog1p.v_log1p_fenv c log1p_s x).2 = log1p_s x.2 ∧
        (VLog1p.log1p_fenv_input x).2 = 0)) := by
  constructor
  · intro tb tab exp_s x
    constructor
    · intro hl
      have hany : vany (vmap VExp.exp_fenv_cmp x) = true := by
        dsimp only [vany, vmap]
        rw [hl, Bool.true_or]
      rw [v_exp_fenv_eq_of_any tb tab exp_s x hany, exp_fenv_input_eq_of_any x hany]
      dsimp only [vcall, vmap, vbsl, vdup]
      rw [hl]
      exact ⟨if_pos rfl, if_pos rfl⟩
    · intro hl
      have hany : vany (vmap VExp.exp_fenv_cmp x) = true := by
        dsimp only [vany, vmap]
        rw [hl, Bool.or_true]
      rw [v_exp_fenv_eq_of_any tb tab exp_s x hany, exp_fenv_input_eq_of_any x hany]
      dsimp only [vcall, vmap, vbsl, vdup]
      rw [hl]
      exact ⟨if_pos rfl, if_pos rfl⟩
  · intro c log1p_s x
    constructor
    · intro hl
      have hany : vany (vmap VLog1p.log1p_special x) = true := by
        dsimp only [vany, vmap]
        rw [hl, Bool.true_or]
      rw [v_log1p_fenv_eq_of_any c log1p_s x hany, log1p_fenv_input_eq_of_any x hany]
      dsimp only [vcall, vmap, vbsl, vdup]
      rw [hl]
      exact ⟨if_pos rfl, if_pos rfl⟩
    · intro hl
      have hany : vany (vmap VLog1p.log1p_special x) = true := by
        dsimp only [vany, vmap]
        rw [hl, Bool.or_true]
      rw [v_log1p_fenv_eq_of_any c log1p_s x hany, log1p_fenv_input_eq_of_any x hany]
      dsimp only [vcall, vmap, vbsl, vdup]
      rw [hl]
      exact ⟨if_pos rfl, if_pos rfl⟩

/-- Witness for C3 at concrete inputs: exp on (+Inf, 1.0) with the first
lane flagged and log1p on (-1.0, 1.0) with the first lane flagged. -/
theorem C3_witness :
    ((VExp.v_exp_fenv 7 (fun _ => one64) (fun _ => 5)
        (0x7ff0000000000000, one64)).1 = 5 ∧
     (VExp.exp_fenv_input (0x7ff0000000000000, one64)).1 = one64) ∧
    ((VLog1p.v_log1p_fenv (fun _ => 0) (fun _ => 9)
        (0xbff0000000000000, one64)).1 = 9 ∧
     (VLog1p.log1p_fenv_input (0xbff0000000000000, one64)).1 = 0) := by
  refine ⟨?_, ?_⟩
  · exact (C3_fenv_dummy_substitution.1 7 (fun _ => one64) (fun _ => 5)
      (0x7ff0000000000000, one64)).1 (by decide)
  · exact (C3_fenv_dummy_substitution.2 (fun _ => 0) (fun _ => 9)
      (0xbff0000000000000, one64)).1 (by decide)

/-- Witness for C10 at the concrete vector (32.0, -32.0). -/
theorem C10_witness :
    VErfc.v_erfc 20 (fun _ _ => 0) (fun _ => 0) (fun _ _ => 0) (fun _ => 0)
        (0x4040000000000000, 0xC040000000000000) = (0, two64) := by
  have h := C10_erfc_saturates_large_inputs 20 (fun _ _ => 0) (fun _ => 0)
    (fun _ _ => 0) (fun _ => 0) (0x4040000000000000, 0xC040000000000000)
    (by decide) (by decide) (by decide) (by decide)
  rw [h]
  norm_num [F64, Fmt.signB, Fmt.wTop]

end FPModel





